import Mathlib

/-!
Ordered parallel task pipeline (`3_restoring_sequencing/main.go`).

A shallow embedding of the two concurrent components of the program:

* the resequencer goroutine of `main` (lines 36-68), a sequential loop over the
  results read from `resultChan`, embedded as a fold of its loop body over the
  list of results received before `resultChan` is closed;
* `processMessage` (lines 89-128), embedded as a labelled transition system over
  the dispatcher goroutine, the worker goroutines and the three channels.

Go's `int` is embedded as `Int`.  The only arithmetic of the program is `++` on
counters that start at `0` and are bounded by the number of results received
(`nextExpected`, see `nextExpected_le_length`) or by `numberOfTask` (the loop
counters), so 64-bit wrap-around does not arise.
-/

set_option linter.unusedTactic false
set_option linter.unreachableTactic false

namespace RestoringSequencing

/-! # Definitions -/

/-! ## Data model -/

/-- The `MessageResult` struct (lines 17-20). -/
structure MessageResult where
  Ordering : Int
  Result : String
deriving DecidableEq, Repr

/-- The resequencer's `buffer`, a `map[int]*MessageResult` (line 41), as an
association list; all access goes through `bufGet`, `bufPut`, `bufDelete`. -/
abbrev Buffer := List (Int × MessageResult)

/-- Map read `buffer[k]` with its `exists` flag (line 53). -/
def bufGet (k : Int) : Buffer → Option MessageResult
  | [] => none
  | (k', v) :: b => if k' = k then some v else bufGet k b

/-- Map removal `delete(buffer, k)` (line 56). -/
def bufDelete (k : Int) : Buffer → Buffer
  | [] => []
  | (k', v) :: b => if k' = k then bufDelete k b else (k', v) :: bufDelete k b

/-- Map write `buffer[k] = v` (line 64): an existing entry is overwritten. -/
def bufPut (k : Int) (v : MessageResult) (b : Buffer) : Buffer :=
  (k, v) :: bufDelete k b

/-- The local state of the resequencer goroutine: `buffer`, `nextExpected`
(lines 41-42) and the values sent to `printerChan` so far, oldest first. -/
structure Resequencer where
  buffer : Buffer
  nextExpected : Int
  printerChan : List MessageResult
deriving DecidableEq, Repr

/-- State at loop entry: `buffer := make(map...)`, `nextExpected := 0`. -/
def Resequencer.init : Resequencer :=
  { buffer := [], nextExpected := 0, printerChan := [] }

/-- The inner `for` of lines 52-61: while `buffer[nextExpected]` exists, send it,
delete it and advance.  Every iteration removes a key from the buffer, so the
number of iterations is bounded by the buffer size; `fuel` is that bound. -/
def drainBuffer : Nat → Resequencer → Resequencer
  | 0, st => st
  | fuel + 1, st =>
    match bufGet st.nextExpected st.buffer with
    | some bufferedResult =>
      drainBuffer fuel
        { buffer := bufDelete st.nextExpected st.buffer
          nextExpected := st.nextExpected + 1
          printerChan := st.printerChan ++ [bufferedResult] }
    | none => st

/-- Body of the `for result := range resultChan` loop (lines 45-65). -/
def onResult (st : Resequencer) (result : MessageResult) : Resequencer :=
  if result.Ordering = st.nextExpected then
    drainBuffer st.buffer.length
      { buffer := st.buffer
        nextExpected := st.nextExpected + 1
        printerChan := st.printerChan ++ [result] }
  else
    { st with buffer := bufPut result.Ordering result st.buffer }

/-- The whole loop of lines 44-66 on the results received from `resultChan`
(in arrival order) until it is closed. -/
def resequence (arrivals : List MessageResult) : Resequencer :=
  arrivals.foldl onResult Resequencer.init

/-- Sequence numbers of a list of results. -/
def orderings (rs : List MessageResult) : List Int :=
  rs.map MessageResult.Ordering

/-- The ascending sequence numbers `0, 1, ..., n-1`. -/
def upTo (n : Nat) : List Int :=
  (List.range n).map Int.ofNat

/-! ## The resequencing invariant -/

/-- What holds between the results received so far (`arrived`) and the state of
the resequencer, at every point of the loop including inside the drain loop. -/
structure Inv (arrived : List MessageResult) (st : Resequencer) : Prop where
  sent : ∃ n : Nat, st.nextExpected = n ∧ orderings st.printerChan = upTo n
  keyed : ∀ k v, bufGet k st.buffer = some v → v.Ordering = k ∧ v ∈ arrived
  pending : ∀ r ∈ arrived, st.nextExpected ≤ r.Ordering →
    (bufGet r.Ordering st.buffer).isSome = true
  below : ∀ k : Int, 0 ≤ k → k < st.nextExpected → k ∈ orderings arrived
  sentFrom : ∀ v ∈ st.printerChan, v ∈ arrived

/-- Between two iterations of the outer loop `buffer[nextExpected]` does not exist. -/
def Settled (st : Resequencer) : Prop :=
  bufGet st.nextExpected st.buffer = none

/-! ## Stale keys, monotonicity and size -/

/-- No key of the buffer lies below the watermark. -/
def NoStale (st : Resequencer) : Prop :=
  ∀ k v, bufGet k st.buffer = some v → st.nextExpected ≤ k

/-! ## The resequencer goroutine with its channels -/

/-- The resequencer goroutine of `main` (lines 36-68) together with what it can
observe: `loop` are its locals, `printerClosed` records that the deferred
`close(printerChan)` has run (the goroutine has returned), and `ctxDone` is the
state of the `ctx` created at line 23, which the goroutine never reads. -/
structure Goroutine where
  ctxDone : Bool
  loop : Resequencer
  printerClosed : Bool
deriving DecidableEq, Repr

/-- What can happen to the resequencer goroutine. -/
inductive Event where
  /-- `cancel()` is called on `ctx`. -/
  | cancel
  /-- The `range` of line 44 receives `r` from `resultChan`. -/
  | receive (r : MessageResult)
  /-- The `range` of line 44 finds `resultChan` closed and drained. -/
  | inputClosed
deriving DecidableEq, Repr

/-- The goroutine when it starts. -/
def Goroutine.init : Goroutine :=
  { ctxDone := false, loop := Resequencer.init, printerClosed := false }

/-- One event of the goroutine; `none` when the event cannot happen (the goroutine
has returned, so it receives nothing any more). -/
def Goroutine.step (g : Goroutine) : Event → Option Goroutine
  | Event.cancel => some { g with ctxDone := true }
  | Event.receive r =>
    if g.printerClosed then none else some { g with loop := onResult g.loop r }
  | Event.inputClosed =>
    if g.printerClosed then none else some { g with printerClosed := true }

/-- A sequence of events from a given state. -/
def Goroutine.run (g : Goroutine) : List Event → Option Goroutine
  | [] => some g
  | e :: es => (g.step e).bind (fun g' => g'.run es)

/-- The arrival stream as events: every result is received, then `resultChan` is
found closed. -/
def stream (arrivals : List MessageResult) : List Event :=
  arrivals.map Event.receive ++ [Event.inputClosed]

/-! ## Results received in a run of events -/

/-- Results received by the goroutine in a sequence of events, in order. -/
def received : List Event → List MessageResult
  | [] => []
  | Event.receive r :: es => r :: received es
  | _ :: es => received es

/-! ## `processMessage`: the bounded executor as a transition system -/

/-- The `Message` struct (lines 12-15). -/
structure Message where
  Ordering : Int
  Value : String
deriving DecidableEq, Repr

/-- The function `createMessage` (lines 82-87). -/
def createMessage (numberTask : Int) : Message :=
  { Ordering := numberTask, Value := "TASK " ++ toString numberTask }

/-- The value `data` a worker builds at lines 108-113. -/
def workerData (numberTask : Int) : MessageResult :=
  { Ordering := (createMessage numberTask).Ordering
    Result := "FINISH TASK " ++ toString (createMessage numberTask).Ordering }

/-- Capacity of `semaphoreChan` (line 93). -/
def semaphoreCap : Nat := 5

/-- Where a worker goroutine (lines 103-120) stands. -/
inductive WorkerPC where
  /-- Started: `createMessage`, the sleep and the construction of `data`. -/
  | working
  /-- In the `select` of lines 114-119. -/
  | selecting
  /-- In the deferred function, before `<-semaphoreChan` (line 105). -/
  | releasing
  /-- In the deferred function, before `doneChan <- struct{}{}` (line 106). -/
  | signalling
  /-- Returned. -/
  | exited
deriving DecidableEq, Repr

/-- A worker goroutine: its argument `numberTask` and where it stands. -/
structure Worker where
  numberTask : Int
  pc : WorkerPC
deriving DecidableEq, Repr

/-- Where the dispatcher goroutine (lines 97-126) stands. -/
inductive DispatcherPC where
  /-- At the head of the `for` of line 99 with this value of `numberTask`. -/
  | admitting (numberTask : Nat)
  /-- The token is sent (line 101), the `go` of line 103 is next. -/
  | spawning (numberTask : Nat)
  /-- At the head of the `for` of line 123 with this value of `i`. -/
  | waiting (i : Nat)
  /-- Returned, the deferred `close(messageResultChan)` has run. -/
  | exited
deriving DecidableEq, Repr

/-- The state of one call of `processMessage`: the cancellation state of `ctx`,
the three channels, the dispatcher and the workers in the order they were
started.  `semaphoreChan` and `doneChan` carry `struct{}` values, so only the
number of buffered values matters; `messageResultChan` is unbuffered, `published`
lists the values handed to its receiver.  `panicked` records a send on the closed
`messageResultChan`. -/
structure State where
  ctxDone : Bool
  semaphoreChan : Nat
  doneChan : Nat
  messageResultClosed : Bool
  published : List MessageResult
  dispatcher : DispatcherPC
  workers : List Worker
  panicked : Bool
deriving DecidableEq, Repr

/-- The atomic actions of the goroutines of `processMessage` and of its
environment. -/
inductive Action where
  /-- `cancel()` is called on `ctx`. -/
  | cancel
  /-- Dispatcher, line 101: `semaphoreChan <- struct{}{}`. -/
  | acquire
  /-- Dispatcher, line 103: the `go` statement, then `numberTask++`. -/
  | spawn
  /-- Dispatcher, line 99: the loop condition fails, on to line 123. -/
  | enterWait
  /-- Dispatcher, line 124: `<-doneChan`, then `i++`. -/
  | recvDone
  /-- Dispatcher, line 123 fails, return and deferred `close(messageResultChan)`. -/
  | closeResults
  /-- Worker `k`, lines 108-113, reaching the `select`. -/
  | work (k : Nat)
  /-- Worker `k`, line 115: the send on `messageResultChan` is taken. -/
  | publish (k : Nat)
  /-- Worker `k`, lines 116-118: `<-ctx.Done()` is taken. -/
  | abandon (k : Nat)
  /-- Worker `k`, line 105: `<-semaphoreChan`. -/
  | release (k : Nat)
  /-- Worker `k`, line 106: `doneChan <- struct{}{}`, then the worker returns. -/
  | signalDone (k : Nat)
deriving DecidableEq, Repr

/-- Where worker `k` stands, if it has been started. -/
def getPC : List Worker → Nat → Option WorkerPC
  | [], _ => none
  | w :: _, 0 => some w.pc
  | _ :: ws, k + 1 => getPC ws k

/-- Move worker `k`. -/
def setPC : List Worker → Nat → WorkerPC → List Worker
  | [], _, _ => []
  | w :: ws, 0, pc => { w with pc := pc } :: ws
  | w :: ws, k + 1, pc => w :: setPC ws k pc

/-- The argument `numberTask` of worker `k`. -/
def getTask : List Worker → Nat → Option Int
  | [], _ => none
  | w :: _, 0 => some w.numberTask
  | _ :: ws, k + 1 => getTask ws k

/-- The call `processMessage(ctx, numberOfTask)` up to its `return`: the channels
are made and the dispatcher goroutine is started.  `make(chan struct{},
numberOfTask)` panics for a negative size, there is then no state. -/
def processMessage (ctxDone : Bool) (numberOfTask : Int) : Option State :=
  if numberOfTask < 0 then none
  else some
    { ctxDone := ctxDone
      semaphoreChan := 0
      doneChan := 0
      messageResultClosed := false
      published := []
      dispatcher := DispatcherPC.admitting 0
      workers := []
      panicked := false }

/-- One action; `none` when the action is not enabled in the state (the goroutine
is elsewhere, or it is blocked on the channel). -/
def step (numberOfTask : Int) (s : State) : Action → Option State
  | Action.cancel => some { s with ctxDone := true }
  | Action.acquire =>
    match s.dispatcher with
    | DispatcherPC.admitting numberTask =>
      if (numberTask : Int) < numberOfTask ∧ s.semaphoreChan < semaphoreCap then
        some { s with semaphoreChan := s.semaphoreChan + 1
                      dispatcher := DispatcherPC.spawning numberTask }
      else none
    | _ => none
  | Action.spawn =>
    match s.dispatcher with
    | DispatcherPC.spawning numberTask =>
      some { s with workers := s.workers ++ [⟨(numberTask : Int), WorkerPC.working⟩]
                    dispatcher := DispatcherPC.admitting (numberTask + 1) }
    | _ => none
  | Action.enterWait =>
    match s.dispatcher with
    | DispatcherPC.admitting numberTask =>
      if (numberTask : Int) < numberOfTask then none
      else some { s with dispatcher := DispatcherPC.waiting 0 }
    | _ => none
  | Action.recvDone =>
    match s.dispatcher with
    | DispatcherPC.waiting i =>
      if (i : Int) < numberOfTask ∧ 0 < s.doneChan then
        some { s with doneChan := s.doneChan - 1
                      dispatcher := DispatcherPC.waiting (i + 1) }
      else none
    | _ => none
  | Action.closeResults =>
    match s.dispatcher with
    | DispatcherPC.waiting i =>
      if (i : Int) < numberOfTask then none
      else some { s with messageResultClosed := true
                         dispatcher := DispatcherPC.exited }
    | _ => none
  | Action.work k =>
    if getPC s.workers k = some WorkerPC.working then
      some { s with workers := setPC s.workers k WorkerPC.selecting }
    else none
  | Action.publish k =>
    if getPC s.workers k = some WorkerPC.selecting then
      match getTask s.workers k with
      | some numberTask =>
        if s.messageResultClosed then some { s with panicked := true }
        else some { s with published := s.published ++ [workerData numberTask]
                           workers := setPC s.workers k WorkerPC.releasing }
      | none => none
    else none
  | Action.abandon k =>
    if getPC s.workers k = some WorkerPC.selecting ∧ s.ctxDone = true then
      some { s with workers := setPC s.workers k WorkerPC.releasing }
    else none
  | Action.release k =>
    if getPC s.workers k = some WorkerPC.releasing ∧ 0 < s.semaphoreChan then
      some { s with semaphoreChan := s.semaphoreChan - 1
                    workers := setPC s.workers k WorkerPC.signalling }
    else none
  | Action.signalDone k =>
    if getPC s.workers k = some WorkerPC.signalling ∧ (s.doneChan : Int) < numberOfTask then
      some { s with doneChan := s.doneChan + 1
                    workers := setPC s.workers k WorkerPC.exited }
    else none

/-- A sequence of actions from a state. -/
def exec (numberOfTask : Int) (s : State) : List Action → Option State
  | [] => some s
  | a :: as => (step numberOfTask s a).bind (fun s' => exec numberOfTask s' as)

/-- The states `processMessage(ctx, numberOfTask)` reaches by a sequence of
actions, `ctxDone` telling whether `ctx` is already cancelled at the call. -/
def reach (ctxDone : Bool) (numberOfTask : Int) (trace : List Action) : Option State :=
  (processMessage ctxDone numberOfTask).bind (fun s => exec numberOfTask s trace)

/-- A worker holds a token from its start until its `<-semaphoreChan`. -/
def holdsPC : WorkerPC → Bool
  | WorkerPC.working => true
  | WorkerPC.selecting => true
  | WorkerPC.releasing => true
  | WorkerPC.signalling => false
  | WorkerPC.exited => false

/-- A worker that has been admitted and has not yet released its token. -/
def holdsToken (w : Worker) : Bool :=
  holdsPC w.pc

/-- A token has been sent for a task whose worker is not yet started. -/
def dispatcherHolds : DispatcherPC → Nat
  | DispatcherPC.spawning _ => 1
  | _ => 0

/-- Number of tasks admitted (token sent to `semaphoreChan`) that have not yet
released their token. -/
def inFlight (s : State) : Nat :=
  dispatcherHolds s.dispatcher + s.workers.countP holdsToken

/-- The worker has returned. -/
def exitedPC : WorkerPC → Bool
  | WorkerPC.exited => true
  | _ => false

/-- A worker that has returned, so that has reported on `doneChan`. -/
def hasExited (w : Worker) : Bool :=
  exitedPC w.pc

/-- All `numberOfTask` workers have been started and have returned. -/
def allExited (numberOfTask : Int) (s : State) : Prop :=
  (s.workers.length : Int) = numberOfTask ∧ ∀ w ∈ s.workers, w.pc = WorkerPC.exited

/-! ## Invariants of `processMessage` -/

/-- Number of workers the dispatcher has started. -/
def startedOf (numberOfTask : Int) : DispatcherPC → Int
  | DispatcherPC.admitting numberTask => numberTask
  | DispatcherPC.spawning numberTask => numberTask
  | DispatcherPC.waiting _ => numberOfTask
  | DispatcherPC.exited => numberOfTask

/-- Number of values the dispatcher has received from `doneChan`. -/
def receivedOf (numberOfTask : Int) : DispatcherPC → Int
  | DispatcherPC.admitting _ => 0
  | DispatcherPC.spawning _ => 0
  | DispatcherPC.waiting i => i
  | DispatcherPC.exited => numberOfTask

/-- The loop counters of the dispatcher stay within `numberOfTask`. -/
def wellPlaced (numberOfTask : Int) : DispatcherPC → Prop
  | DispatcherPC.admitting numberTask => (numberTask : Int) ≤ numberOfTask
  | DispatcherPC.spawning numberTask => (numberTask : Int) < numberOfTask
  | DispatcherPC.waiting i => (i : Int) ≤ numberOfTask
  | DispatcherPC.exited => True

/-- The invariant of `processMessage`. -/
structure Sound (numberOfTask : Int) (s : State) : Prop where
  nonneg : 0 ≤ numberOfTask
  tokens : s.semaphoreChan = inFlight s
  bound : s.semaphoreChan ≤ semaphoreCap
  started : (s.workers.length : Int) = startedOf numberOfTask s.dispatcher
  placed : wellPlaced numberOfTask s.dispatcher
  done : (s.doneChan : Int) + receivedOf numberOfTask s.dispatcher
    = (s.workers.countP hasExited : Nat)
  closed : s.messageResultClosed = true ↔ s.dispatcher = DispatcherPC.exited
  noPanic : s.panicked = false

/-! ## What a trace says about each worker -/

/-- Number of `release` actions of a worker, from where it stands. -/
def releasedOf : Option WorkerPC → Nat
  | some WorkerPC.signalling => 1
  | some WorkerPC.exited => 1
  | _ => 0

/-- Number of `signalDone` actions of a worker, from where it stands. -/
def reportedOf : Option WorkerPC → Nat
  | some WorkerPC.exited => 1
  | _ => 0

/-- Number of times a worker has left its `select`, from where it stands. -/
def selectedOf : Option WorkerPC → Nat
  | some WorkerPC.releasing => 1
  | some WorkerPC.signalling => 1
  | some WorkerPC.exited => 1
  | _ => 0

/-- The actions of a run, counted per worker, are determined by the state. -/
structure Counted (numberOfTask : Int) (tr : List Action) (s : State) : Prop where
  released : ∀ k, tr.count (Action.release k) = releasedOf (getPC s.workers k)
  reported : ∀ k, tr.count (Action.signalDone k) = reportedOf (getPC s.workers k)
  selected : ∀ k, tr.count (Action.publish k) + tr.count (Action.abandon k)
    = selectedOf (getPC s.workers k)
  received : (tr.count Action.recvDone : Int) = receivedOf numberOfTask s.dispatcher

/-! # Theorems -/

/-! ## Map laws of the buffer -/

theorem bufGet_delete_self (k : Int) (b : Buffer) : bufGet k (bufDelete k b) = none := by
  induction b with
  | nil => rfl
  | cons e b ih =>
    obtain ⟨k', v⟩ := e
    by_cases h : k' = k <;> simp [bufDelete, bufGet, h, ih]

theorem bufGet_delete_ne {k k' : Int} (h : k' ≠ k) (b : Buffer) :
    bufGet k' (bufDelete k b) = bufGet k' b := by
  induction b with
  | nil => rfl
  | cons e b ih =>
    obtain ⟨k'', v⟩ := e
    by_cases h1 : k'' = k
    · have h2 : ¬ k'' = k' := fun h3 => h (h3 ▸ h1)
      rw [bufDelete, if_pos h1, bufGet, if_neg h2, ih]
    · rw [bufDelete, if_neg h1]
      by_cases h2 : k'' = k'
      · rw [bufGet, if_pos h2, bufGet, if_pos h2]
      · rw [bufGet, if_neg h2, bufGet, if_neg h2, ih]

theorem bufGet_put_self (k : Int) (v : MessageResult) (b : Buffer) :
    bufGet k (bufPut k v b) = some v := by
  simp [bufPut, bufGet]

theorem bufGet_put_ne {k k' : Int} (h : k' ≠ k) (v : MessageResult) (b : Buffer) :
    bufGet k' (bufPut k v b) = bufGet k' b := by
  simp [bufPut, bufGet, Ne.symm h, bufGet_delete_ne h]

theorem bufDelete_length_le (k : Int) (b : Buffer) : (bufDelete k b).length ≤ b.length := by
  induction b with
  | nil => simp [bufDelete]
  | cons e b ih =>
    obtain ⟨k', v⟩ := e
    by_cases h : k' = k <;> simp [bufDelete, h] <;> omega

theorem bufDelete_length_lt {k : Int} {b : Buffer} {v : MessageResult}
    (h : bufGet k b = some v) : (bufDelete k b).length < b.length := by
  induction b with
  | nil => simp [bufGet] at h
  | cons e b ih =>
    obtain ⟨k', v'⟩ := e
    by_cases h1 : k' = k
    · have := bufDelete_length_le k b
      simp [bufDelete, h1]
      omega
    · simp [bufGet, h1] at h
      have := ih h
      simp [bufDelete, h1]
      omega

theorem buffer_eq_nil_of_bufGet_none {b : Buffer} (h : ∀ k, bufGet k b = none) : b = [] := by
  cases b with
  | nil => rfl
  | cons e b =>
    obtain ⟨k, v⟩ := e
    have := h k
    simp [bufGet] at this

/-! ## The drain loop -/

/-- Any property kept by one iteration of the drain loop holds when it ends. -/
theorem drainBuffer_induction (P : Resequencer → Prop)
    (hiter : ∀ st r, P st → bufGet st.nextExpected st.buffer = some r →
      P { buffer := bufDelete st.nextExpected st.buffer
          nextExpected := st.nextExpected + 1
          printerChan := st.printerChan ++ [r] })
    (fuel : Nat) (st : Resequencer) (h : P st) : P (drainBuffer fuel st) := by
  induction fuel generalizing st with
  | zero => exact h
  | succ fuel ih =>
    unfold drainBuffer
    cases hg : bufGet st.nextExpected st.buffer with
    | none => exact h
    | some r => exact ih _ (hiter st r h hg)

/-- With fuel at least the buffer size the drain loop leaves through its `break`:
`buffer[nextExpected]` does not exist when it returns. -/
theorem drainBuffer_exit (fuel : Nat) (st : Resequencer) (h : st.buffer.length ≤ fuel) :
    bufGet (drainBuffer fuel st).nextExpected (drainBuffer fuel st).buffer = none := by
  induction fuel generalizing st with
  | zero =>
    have : st.buffer = [] := List.length_eq_zero.mp (Nat.le_zero.mp h)
    simp [drainBuffer, this, bufGet]
  | succ fuel ih =>
    unfold drainBuffer
    cases hg : bufGet st.nextExpected st.buffer with
    | none => simpa using hg
    | some r =>
      apply ih
      have := bufDelete_length_lt hg
      simp only
      omega

theorem resequence_append_singleton (l : List MessageResult) (r : MessageResult) :
    resequence (l ++ [r]) = onResult (resequence l) r := by
  simp [resequence, List.foldl_append]

theorem upTo_succ (n : Nat) : upTo (n + 1) = upTo n ++ [(n : Int)] := by
  simp [upTo, List.range_succ]

theorem mem_upTo {k : Int} {n : Nat} : k ∈ upTo n ↔ 0 ≤ k ∧ k < n := by
  constructor
  · intro h
    simp only [upTo, List.mem_map, List.mem_range] at h
    obtain ⟨a, ha, rfl⟩ := h
    exact ⟨Int.ofNat_nonneg a, Int.ofNat_lt.mpr ha⟩
  · rintro ⟨h0, h1⟩
    simp only [upTo, List.mem_map, List.mem_range]
    refine ⟨k.toNat, ?_, ?_⟩
    · omega
    · simp [Int.toNat_of_nonneg h0]

/-! ## The resequencing invariant -/

theorem inv_init : Inv [] Resequencer.init where
  sent := ⟨0, rfl, rfl⟩
  keyed := by intro k v h; simp [Resequencer.init, bufGet] at h
  pending := by intro r h; simp at h
  below := by intro k h0 h1; simp only [Resequencer.init] at h1; omega
  sentFrom := by intro v hv; simp [Resequencer.init] at hv

theorem inv_drainIter {arrived : List MessageResult} {st : Resequencer} {r : MessageResult}
    (h : Inv arrived st) (hg : bufGet st.nextExpected st.buffer = some r) :
    Inv arrived
      { buffer := bufDelete st.nextExpected st.buffer
        nextExpected := st.nextExpected + 1
        printerChan := st.printerChan ++ [r] } := by
  obtain ⟨n, hn, hs⟩ := h.sent
  have hr := h.keyed _ _ hg
  refine ⟨⟨n + 1, ?_, ?_⟩, ?_, ?_, ?_, ?_⟩
  · simp only [hn]; push_cast; rfl
  · simp only [orderings, List.map_append, List.map_cons, List.map_nil] at hs ⊢
    rw [hs, upTo_succ, hr.1, hn]
  · intro k v hk
    simp only at hk
    by_cases hkn : k = st.nextExpected
    · rw [hkn, bufGet_delete_self] at hk; cases hk
    · rw [bufGet_delete_ne hkn] at hk
      exact h.keyed k v hk
  · intro x hx hle
    simp only at hle ⊢
    have hne : x.Ordering ≠ st.nextExpected := by omega
    rw [bufGet_delete_ne hne]
    exact h.pending x hx (by omega)
  · intro k h0 h1
    simp only at h1
    by_cases hk : k < st.nextExpected
    · exact h.below k h0 hk
    · have : k = r.Ordering := by rw [hr.1]; omega
      rw [this]
      exact List.mem_map_of_mem _ hr.2
  · intro v hv
    rcases List.mem_append.mp hv with hv | hv
    · exact h.sentFrom v hv
    · simp only [List.mem_singleton] at hv
      rw [hv]
      exact hr.2

theorem inv_onResult {arrived : List MessageResult} {st : Resequencer}
    (h : Inv arrived st) (r : MessageResult) : Inv (arrived ++ [r]) (onResult st r) := by
  unfold RestoringSequencing.onResult
  split_ifs with heq
  · apply drainBuffer_induction (Inv (arrived ++ [r]))
    · intro st' r' h' hg
      exact inv_drainIter h' hg
    · obtain ⟨n, hn, hs⟩ := h.sent
      refine ⟨⟨n + 1, ?_, ?_⟩, ?_, ?_, ?_, ?_⟩
      · simp only [hn]; push_cast; rfl
      · simp only [orderings, List.map_append, List.map_cons, List.map_nil] at hs ⊢
        rw [hs, upTo_succ, heq, hn]
      · intro k v hk
        have := h.keyed k v hk
        exact ⟨this.1, List.mem_append_left _ this.2⟩
      · intro x hx hle
        simp only at hle ⊢
        rcases List.mem_append.mp hx with hx | hx
        · exact h.pending x hx (by omega)
        · simp only [List.mem_singleton] at hx
          subst hx
          omega
      · intro k h0 h1
        simp only at h1
        simp only [orderings, List.map_append, List.mem_append]
        by_cases hk : k < st.nextExpected
        · exact Or.inl (h.below k h0 hk)
        · right
          have : k = r.Ordering := by omega
          simp [this]
      · intro v hv
        rcases List.mem_append.mp hv with hv | hv
        · exact List.mem_append_left _ (h.sentFrom v hv)
        · exact List.mem_append_right _ hv
  · obtain ⟨n, hn, hs⟩ := h.sent
    refine ⟨⟨n, hn, hs⟩, ?_, ?_, ?_, ?_⟩
    · intro k v hk
      simp only at hk
      by_cases hkn : k = r.Ordering
      · rw [hkn, bufGet_put_self] at hk
        cases hk
        exact ⟨hkn.symm, by simp⟩
      · rw [bufGet_put_ne hkn] at hk
        have := h.keyed k v hk
        exact ⟨this.1, List.mem_append_left _ this.2⟩
    · intro x hx hle
      simp only at hle ⊢
      by_cases hxr : x.Ordering = r.Ordering
      · rw [hxr, bufGet_put_self]; rfl
      · rw [bufGet_put_ne hxr]
        rcases List.mem_append.mp hx with hx | hx
        · exact h.pending x hx hle
        · simp only [List.mem_singleton] at hx
          exact absurd (by rw [hx]) hxr
    · intro k h0 h1
      simp only [orderings, List.map_append, List.mem_append]
      exact Or.inl (h.below k h0 h1)
    · intro v hv
      exact List.mem_append_left _ (h.sentFrom v hv)

theorem settled_onResult {st : Resequencer} (h : Settled st) (r : MessageResult) :
    Settled (onResult st r) := by
  unfold RestoringSequencing.onResult
  split_ifs with heq
  · exact drainBuffer_exit _ _ (le_refl _)
  · simp only [Settled]
    rw [bufGet_put_ne (Ne.symm heq)]
    exact h

/-- The invariant holds after every prefix of the arrivals. -/
theorem resequence_inv (arrivals : List MessageResult) :
    Inv arrivals (resequence arrivals) ∧ Settled (resequence arrivals) := by
  induction arrivals using List.reverseRecOn with
  | nil => exact ⟨inv_init, rfl⟩
  | append_singleton l r ih =>
    rw [resequence_append_singleton]
    exact ⟨inv_onResult ih.1 r, settled_onResult ih.2 r⟩

/-! ## Stale keys, monotonicity and size -/

theorem noStale_onResult {st : Resequencer} (h : NoStale st) (hs : Settled st)
    (r : MessageResult) (hr : st.nextExpected ≤ r.Ordering) : NoStale (onResult st r) := by
  unfold RestoringSequencing.onResult
  split_ifs with heq
  · apply drainBuffer_induction NoStale
    · intro st' r' h' hg k v hk
      simp only at hk ⊢
      by_cases hkn : k = st'.nextExpected
      · rw [hkn, bufGet_delete_self] at hk; cases hk
      · rw [bufGet_delete_ne hkn] at hk
        have := h' k v hk
        omega
    · intro k v hk
      simp only at hk ⊢
      have h1 := h k v hk
      have h2 : k ≠ st.nextExpected := by
        intro h3
        rw [h3, hs] at hk
        cases hk
      omega
  · intro k v hk
    simp only at hk ⊢
    by_cases hkn : k = r.Ordering
    · rw [hkn]; exact hr
    · rw [bufGet_put_ne hkn] at hk
      exact h k v hk

/-- When the sequence numbers are non-negative and pairwise distinct, nothing
arrives below the watermark, so no key of the buffer lies below it. -/
theorem resequence_noStale (arrivals : List MessageResult)
    (hnd : (orderings arrivals).Nodup) (hpos : ∀ r ∈ arrivals, 0 ≤ r.Ordering) :
    NoStale (resequence arrivals) := by
  induction arrivals using List.reverseRecOn with
  | nil => intro k v hk; simp [resequence, Resequencer.init, bufGet] at hk
  | append_singleton l r ih =>
    have hnd' : (orderings l ++ [r.Ordering]).Nodup := by
      simpa [orderings] using hnd
    have hl : (orderings l).Nodup := (List.nodup_append.mp hnd').1
    have hrl : r.Ordering ∉ orderings l := by
      intro hmem
      exact (List.nodup_append.mp hnd').2.2 hmem (List.mem_singleton_self _)
    have hinv := resequence_inv l
    rw [resequence_append_singleton]
    apply noStale_onResult (ih hl (fun x hx => hpos x (List.mem_append_left _ hx))) hinv.2
    by_contra hlt
    exact hrl (hinv.1.below _ (hpos r (by simp)) (by omega))

/-- What one iteration of the outer loop leaves untouched: the watermark does not
decrease, the values already sent stay, everything sent in the iteration carries a
sequence number at or above the old watermark, and a key below the old watermark
changes only by the arriving result being stored under it. -/
theorem onResult_frame {arrived : List MessageResult} {st : Resequencer}
    (h : Inv arrived st) (x : MessageResult) :
    st.nextExpected ≤ (onResult st x).nextExpected ∧
    (∃ extra, (onResult st x).printerChan = st.printerChan ++ extra ∧
      ∀ y ∈ extra, st.nextExpected ≤ y.Ordering) ∧
    (∀ k, k < st.nextExpected →
      bufGet k (onResult st x).buffer = if x.Ordering = k then some x else bufGet k st.buffer) := by
  unfold RestoringSequencing.onResult
  split_ifs with heq
  · have key := drainBuffer_induction (fun st' =>
      st.nextExpected ≤ st'.nextExpected ∧
      (∃ extra, st'.printerChan = st.printerChan ++ extra ∧
        ∀ y ∈ extra, st.nextExpected ≤ y.Ordering) ∧
      (∀ k, k < st.nextExpected → bufGet k st'.buffer = bufGet k st.buffer) ∧
      (∀ k v, bufGet k st'.buffer = some v → v.Ordering = k))
      (by
        intro st' r' h' hg
        obtain ⟨h1, ⟨extra, he, hex⟩, h3, h4⟩ := h'
        refine ⟨by simp only; omega, ⟨extra ++ [r'], ?_, ?_⟩, ?_, ?_⟩
        · simp only [he, List.append_assoc]
        · intro y hy
          rcases List.mem_append.mp hy with hy | hy
          · exact hex y hy
          · simp only [List.mem_singleton] at hy
            rw [hy, h4 _ _ hg]
            exact h1
        · intro k hk
          simp only
          rw [bufGet_delete_ne (by omega)]
          exact h3 k hk
        · intro k v hk
          simp only at hk
          by_cases hkn : k = st'.nextExpected
          · rw [hkn, bufGet_delete_self] at hk; cases hk
          · rw [bufGet_delete_ne hkn] at hk
            exact h4 k v hk)
      st.buffer.length
      { buffer := st.buffer
        nextExpected := st.nextExpected + 1
        printerChan := st.printerChan ++ [x] }
      (by
        refine ⟨by simp only; omega, ⟨[x], rfl, ?_⟩, ?_, ?_⟩
        · intro y hy
          simp only [List.mem_singleton] at hy
          rw [hy, heq]
        · intro k _
          rfl
        · intro k v hk
          exact (h.keyed k v hk).1)
    refine ⟨key.1, key.2.1, ?_⟩
    intro k hk
    rw [key.2.2.1 k hk, if_neg (by omega)]
  · refine ⟨le_refl _, ⟨[], by simp, by simp⟩, ?_⟩
    intro k _
    simp only
    by_cases hkx : x.Ordering = k
    · rw [if_pos hkx, ← hkx, bufGet_put_self]
    · rw [if_neg hkx, bufGet_put_ne (Ne.symm hkx)]

theorem bufPut_length_le (k : Int) (v : MessageResult) (b : Buffer) :
    (bufPut k v b).length ≤ b.length + 1 := by
  have := bufDelete_length_le k b
  simp only [bufPut, List.length_cons]
  omega

/-- Every result received is either sent, or in the buffer, or was overwritten or
left behind in it: sent plus buffered never exceeds received. -/
theorem resequence_size (arrivals : List MessageResult) :
    (resequence arrivals).printerChan.length + (resequence arrivals).buffer.length
      ≤ arrivals.length := by
  induction arrivals using List.reverseRecOn with
  | nil => simp [resequence, Resequencer.init]
  | append_singleton l r ih =>
    rw [resequence_append_singleton, List.length_append, List.length_singleton]
    unfold onResult
    split_ifs with heq
    · apply drainBuffer_induction
        (fun st' => st'.printerChan.length + st'.buffer.length ≤ l.length + 1)
      · intro st' r' h' hg
        have := bufDelete_length_lt hg
        simp only [List.length_append, List.length_singleton] at h' ⊢
        omega
      · simp only [List.length_append, List.length_singleton]
        omega
    · have := bufPut_length_le r.Ordering r (resequence l).buffer
      simp only
      omega

theorem upTo_length (n : Nat) : (upTo n).length = n := by
  simp [upTo]

/-- The watermark never exceeds the number of results received, which is why the
unbounded `Int` of the embedding and Go's 64-bit `int` agree on `nextExpected++`. -/
theorem nextExpected_le_length (arrivals : List MessageResult) :
    (resequence arrivals).nextExpected ≤ arrivals.length := by
  obtain ⟨n, hn, hs⟩ := (resequence_inv arrivals).1.sent
  have h1 := resequence_size arrivals
  have h2 : (resequence arrivals).printerChan.length = n := by
    have := congrArg List.length hs
    simpa [orderings, upTo_length] using this
  rw [hn]
  have : n ≤ arrivals.length := by omega
  exact_mod_cast this

/-! ## The resequencer goroutine with its channels -/

theorem run_receive (g : Goroutine) (h : g.printerClosed = false)
    (arrivals : List MessageResult) (es : List Event) :
    g.run (arrivals.map Event.receive ++ es) =
      Goroutine.run { g with loop := arrivals.foldl onResult g.loop } es := by
  induction arrivals generalizing g with
  | nil => rfl
  | cons r rs ih =>
    have hstep : g.step (Event.receive r) = some { g with loop := onResult g.loop r } := by
      simp [Goroutine.step, h]
    rw [List.map_cons, List.cons_append, Goroutine.run, hstep, Option.some_bind,
      ih { g with loop := onResult g.loop r } h, List.foldl_cons]

/-- On every arrival stream the goroutine runs to its end: it has processed all
the arrivals and closed `printerChan`. -/
theorem run_stream (arrivals : List MessageResult) :
    Goroutine.init.run (stream arrivals) =
      some { ctxDone := false, loop := resequence arrivals, printerClosed := true } := by
  rw [stream, run_receive _ rfl]
  rfl

/-! ## Delivery in order -/

theorem upTo_nodup (n : Nat) : (upTo n).Nodup := by
  unfold upTo
  exact (List.nodup_range n).map (fun a b h => Int.ofNat.inj h)

/-- The watermark after any arrivals is the least natural number that is not the
sequence number of an arrival, and the sequence numbers sent are those below it,
ascending. -/
theorem resequence_watermark (arrivals : List MessageResult) :
    ∃ m : Nat, (resequence arrivals).nextExpected = m ∧
      orderings (resequence arrivals).printerChan = upTo m ∧
      (∀ k : Nat, k < m → (k : Int) ∈ orderings arrivals) ∧
      (m : Int) ∉ orderings arrivals := by
  obtain ⟨hinv, hset⟩ := resequence_inv arrivals
  obtain ⟨m, hm, hs⟩ := hinv.sent
  refine ⟨m, hm, hs, ?_, ?_⟩
  · intro k hk
    exact hinv.below k (Int.ofNat_nonneg k) (by rw [hm]; exact_mod_cast hk)
  · intro hmem
    simp only [orderings, List.mem_map] at hmem
    obtain ⟨r, hr, hro⟩ := hmem
    have := hinv.pending r hr (by rw [hro, hm])
    rw [hro, ← hm, hset] at this
    cases this

/-- When the arrivals carry each of `0..N-1` once: everything is sent, in
ascending order, and nothing stays in the buffer. -/
theorem resequence_complete (N : Nat) (arrivals : List MessageResult)
    (hperm : (orderings arrivals).Perm (upTo N)) :
    (resequence arrivals).nextExpected = N ∧
    orderings (resequence arrivals).printerChan = upTo N ∧
    (resequence arrivals).buffer = [] := by
  obtain ⟨m, hm, hs, hbelow, hmiss⟩ := resequence_watermark arrivals
  have hmN : m = N := by
    rcases Nat.lt_trichotomy m N with hlt | heq | hgt
    · exfalso
      apply hmiss
      rw [hperm.mem_iff, mem_upTo]
      exact ⟨Int.ofNat_nonneg m, by exact_mod_cast hlt⟩
    · exact heq
    · exfalso
      have := hbelow N hgt
      rw [hperm.mem_iff, mem_upTo] at this
      omega
  subst hmN
  refine ⟨hm, hs, ?_⟩
  apply buffer_eq_nil_of_bufGet_none
  intro k
  cases hk : bufGet k (resequence arrivals).buffer with
  | none => rfl
  | some v =>
    exfalso
    have hkey := (resequence_inv arrivals).1.keyed k v hk
    have hmem : k ∈ orderings arrivals := by
      rw [← hkey.1]
      exact List.mem_map_of_mem _ hkey.2
    rw [hperm.mem_iff, mem_upTo] at hmem
    have hnd : (orderings arrivals).Nodup := hperm.nodup_iff.mpr (upTo_nodup m)
    have hpos : ∀ r ∈ arrivals, 0 ≤ r.Ordering := by
      intro r hr
      have : r.Ordering ∈ orderings arrivals := List.mem_map_of_mem _ hr
      rw [hperm.mem_iff, mem_upTo] at this
      exact this.1
    have := resequence_noStale arrivals hnd hpos k v hk
    omega

/-- A result that arrives below the watermark: what the rest of the run does to
its key and to `printerChan`. -/
theorem stale_frame (pre : List MessageResult) (r : MessageResult)
    (hstale : r.Ordering < (resequence pre).nextExpected) (post : List MessageResult) :
    (resequence pre).nextExpected ≤ (resequence (pre ++ r :: post)).nextExpected ∧
    (∃ later, (resequence (pre ++ r :: post)).printerChan =
        (resequence pre).printerChan ++ later ∧
      ∀ y ∈ later, (resequence pre).nextExpected ≤ y.Ordering) ∧
    (∃ v, bufGet r.Ordering (resequence (pre ++ r :: post)).buffer = some v ∧
      v ∈ r :: post) ∧
    ((∀ x ∈ post, x.Ordering ≠ r.Ordering) →
      bufGet r.Ordering (resequence (pre ++ r :: post)).buffer = some r) := by
  induction post using List.reverseRecOn with
  | nil =>
    rw [resequence_append_singleton]
    obtain ⟨h1, h2, h3⟩ := onResult_frame (resequence_inv pre).1 r
    have h4 := h3 r.Ordering hstale
    rw [if_pos rfl] at h4
    exact ⟨h1, h2, ⟨r, h4, by simp⟩, fun _ => h4⟩
  | append_singleton post x ih =>
    have hl : pre ++ r :: (post ++ [x]) = (pre ++ r :: post) ++ [x] := by simp
    rw [hl, resequence_append_singleton]
    obtain ⟨i1, ⟨later, i2, i2'⟩, ⟨v, i3, i3'⟩, i4⟩ := ih
    obtain ⟨h1, ⟨extra, h2, h2'⟩, h3⟩ := onResult_frame (resequence_inv (pre ++ r :: post)).1 x
    have h4 := h3 r.Ordering (by omega)
    refine ⟨by omega, ⟨later ++ extra, ?_, ?_⟩, ?_, ?_⟩
    · rw [h2, i2, List.append_assoc]
    · intro y hy
      rcases List.mem_append.mp hy with hy | hy
      · exact i2' y hy
      · have := h2' y hy
        omega
    · by_cases hx : x.Ordering = r.Ordering
      · rw [if_pos hx] at h4
        exact ⟨x, h4, by simp⟩
      · rw [if_neg hx, i3] at h4
        refine ⟨v, h4, ?_⟩
        rcases List.mem_cons.mp i3' with hv | hv
        · simp [hv]
        · simp [hv]
    · intro hne
      have hx : x.Ordering ≠ r.Ordering := hne x (by simp)
      rw [if_neg hx] at h4
      rw [h4]
      exact i4 (fun y hy => hne y (by simp [hy]))

/-! ## Arrival in reverse order -/

theorem upTo_succ_reverse (n : Nat) :
    (upTo (n + 1)).reverse = ((upTo n).map (fun i => i + 1)).reverse ++ [0] := by
  have : upTo (n + 1) = 0 :: (upTo n).map (fun i => i + 1) := by
    simp only [upTo, List.range_succ_eq_map, List.map_cons, List.map_map]
    refine congrArg₂ _ rfl (List.map_congr_left ?_)
    intro a _
    simp only [Function.comp]
    exact Int.ofNat_succ a
  rw [this, List.reverse_cons]

/-- As long as sequence number `0` has not arrived nothing is sent. -/
theorem resequence_waiting (l : List MessageResult) (h : ∀ r ∈ l, r.Ordering ≠ 0) :
    (resequence l).printerChan = [] ∧ (resequence l).nextExpected = 0 := by
  induction l using List.reverseRecOn with
  | nil => exact ⟨rfl, rfl⟩
  | append_singleton l r ih =>
    obtain ⟨h1, h2⟩ := ih (fun x hx => h x (List.mem_append_left _ hx))
    have hr : ¬ r.Ordering = (resequence l).nextExpected := by
      rw [h2]
      exact h r (by simp)
    rw [resequence_append_singleton]
    unfold onResult
    rw [if_neg hr]
    exact ⟨h1, h2⟩

/-- Two lists over a set on which `f` is injective are equal when their images are. -/
theorem eq_of_map_eq_of_injOn {α β : Type} (f : α → β) (A : List α)
    (hinj : ∀ x ∈ A, ∀ y ∈ A, f x = f y → x = y) :
    ∀ l₁ l₂ : List α, (∀ x ∈ l₁, x ∈ A) → (∀ x ∈ l₂, x ∈ A) →
      l₁.map f = l₂.map f → l₁ = l₂
  | [], [], _, _, _ => rfl
  | [], _ :: _, _, _, h => by simp at h
  | _ :: _, [], _, _, h => by simp at h
  | a :: l₁, b :: l₂, h₁, h₂, h => by
    simp only [List.map_cons, List.cons.injEq] at h
    have hab : a = b := hinj a (h₁ a (by simp)) b (h₂ b (by simp)) h.1
    have := eq_of_map_eq_of_injOn f A hinj l₁ l₂
      (fun x hx => h₁ x (by simp [hx])) (fun x hx => h₂ x (by simp [hx])) h.2
    rw [hab, this]

theorem ordering_injOn (arrivals : List MessageResult) (hnd : (orderings arrivals).Nodup) :
    ∀ x ∈ arrivals, ∀ y ∈ arrivals, x.Ordering = y.Ordering → x = y := by
  intro x hx y hy hxy
  exact List.inj_on_of_nodup_map hnd hx hy hxy

/-! ## Resequencer: the properties of the specification -/

/-- C1: for every `N` and every arrival order that is a permutation of the
sequence numbers `0..N-1`, the results sent to `printerChan` carry exactly the
sequence numbers `0, 1, ..., N-1` in that order (so `N` results, no duplicate, no
gap), the watermark ends at `N`, and the buffer is empty when the input ends. -/
theorem resequence_permutation (N : Nat) (arrivals : List MessageResult)
    (hperm : (orderings arrivals).Perm (upTo N)) :
    orderings (resequence arrivals).printerChan = upTo N ∧
    (resequence arrivals).printerChan.length = N ∧
    (resequence arrivals).nextExpected = N ∧
    (resequence arrivals).buffer = [] := by
  obtain ⟨h1, h2, h3⟩ := resequence_complete N arrivals hperm
  refine ⟨h2, ?_, h1, h3⟩
  have := congrArg List.length h2
  simpa [orderings, upTo_length] using this

/-- C1 at `N = 10` with the completion order `3,1,0,2,9,8,7,6,5,4`. -/
theorem resequence_permutation_witness :
    (orderings [⟨3, "FINISH TASK 3"⟩, ⟨1, "FINISH TASK 1"⟩, ⟨0, "FINISH TASK 0"⟩,
        ⟨2, "FINISH TASK 2"⟩, ⟨9, "FINISH TASK 9"⟩, ⟨8, "FINISH TASK 8"⟩,
        ⟨7, "FINISH TASK 7"⟩, ⟨6, "FINISH TASK 6"⟩, ⟨5, "FINISH TASK 5"⟩,
        ⟨4, "FINISH TASK 4"⟩]).Perm (upTo 10) ∧
    orderings (resequence [⟨3, "FINISH TASK 3"⟩, ⟨1, "FINISH TASK 1"⟩, ⟨0, "FINISH TASK 0"⟩,
        ⟨2, "FINISH TASK 2"⟩, ⟨9, "FINISH TASK 9"⟩, ⟨8, "FINISH TASK 8"⟩,
        ⟨7, "FINISH TASK 7"⟩, ⟨6, "FINISH TASK 6"⟩, ⟨5, "FINISH TASK 5"⟩,
        ⟨4, "FINISH TASK 4"⟩]).printerChan = [0, 1, 2, 3, 4, 5, 6, 7, 8, 9] :=
  ⟨by decide, (resequence_permutation 10 _ (by decide)).1⟩

/-- C2: for every finite arrival stream the goroutine runs to its end and closes
`printerChan`, and the sequence numbers it has sent are exactly `0, 1, ..., m-1`
where `m` is the least non-negative integer that is not the sequence number of
any arrival; the watermark stops at `m`. -/
theorem resequence_least_missing (arrivals : List MessageResult) :
    ∃ (m : Nat) (g : Goroutine),
      Goroutine.init.run (stream arrivals) = some g ∧
      g.printerClosed = true ∧
      g.loop.nextExpected = m ∧
      orderings g.loop.printerChan = upTo m ∧
      (∀ k : Nat, k < m → (k : Int) ∈ orderings arrivals) ∧
      (m : Int) ∉ orderings arrivals := by
  obtain ⟨m, h1, h2, h3, h4⟩ := resequence_watermark arrivals
  exact ⟨m, _, run_stream arrivals, rfl, h1, h2, h3, h4⟩

/-- C6 as stated fails: after the arrivals `0, -1` (pairwise distinct) the key
`-1` is in the buffer although it is not above the watermark `1`. -/
theorem buffer_key_below_watermark :
    (orderings [⟨0, "a"⟩, ⟨-1, "b"⟩]).Nodup ∧
    ¬ ((bufGet (-1) (resequence [⟨0, "a"⟩, ⟨-1, "b"⟩]).buffer).isSome = true ↔
        ((-1 : Int) ∈ orderings [⟨0, "a"⟩, ⟨-1, "b"⟩] ∧
          (resequence [⟨0, "a"⟩, ⟨-1, "b"⟩]).nextExpected < -1)) := by
  decide

/-- C6, amended: for every arrival stream whose sequence numbers are pairwise
distinct and non-negative, after each arrival has been fully processed a sequence
number `s` is a key of the buffer if and only if a result with sequence `s` has
arrived and `s > nextExpected`; `nextExpected` itself is not a key, and no result
already sent is still in the buffer. -/
theorem buffer_keys_iff (arrivals : List MessageResult)
    (hnd : (orderings arrivals).Nodup) (hpos : ∀ r ∈ arrivals, 0 ≤ r.Ordering) (j : Nat) :
    (∀ s : Int, (bufGet s (resequence (arrivals.take j)).buffer).isSome = true ↔
      (s ∈ orderings (arrivals.take j) ∧ (resequence (arrivals.take j)).nextExpected < s)) ∧
    bufGet (resequence (arrivals.take j)).nextExpected (resequence (arrivals.take j)).buffer
      = none ∧
    (∀ v ∈ (resequence (arrivals.take j)).printerChan,
      bufGet v.Ordering (resequence (arrivals.take j)).buffer = none) := by
  have hnd' : (orderings (arrivals.take j)).Nodup := by
    have : orderings (arrivals.take j) = (orderings arrivals).take j := by
      simp [orderings, List.map_take]
    rw [this]
    exact hnd.sublist (List.take_sublist j _)
  have hpos' : ∀ r ∈ arrivals.take j, 0 ≤ r.Ordering :=
    fun r hr => hpos r (List.mem_of_mem_take hr)
  obtain ⟨hinv, hset⟩ := resequence_inv (arrivals.take j)
  have hns := resequence_noStale _ hnd' hpos'
  refine ⟨?_, hset, ?_⟩
  · intro s
    constructor
    · intro hs
      obtain ⟨v, hv⟩ := Option.isSome_iff_exists.mp hs
      have hk := hinv.keyed s v hv
      refine ⟨?_, ?_⟩
      · rw [← hk.1]
        exact List.mem_map_of_mem _ hk.2
      · have h1 := hns s v hv
        have h2 : s ≠ (resequence (arrivals.take j)).nextExpected := by
          intro h3
          rw [h3, hset] at hv
          cases hv
        omega
    · rintro ⟨hmem, hlt⟩
      simp only [orderings, List.mem_map] at hmem
      obtain ⟨r, hr, hro⟩ := hmem
      have := hinv.pending r hr (by omega)
      rwa [hro] at this
  · intro v hv
    cases hb : bufGet v.Ordering (resequence (arrivals.take j)).buffer with
    | none => rfl
    | some w =>
      exfalso
      have h1 := hns _ _ hb
      obtain ⟨n, hn, hsent⟩ := hinv.sent
      have h2 : v.Ordering ∈ upTo n := by
        rw [← hsent]
        exact List.mem_map_of_mem _ hv
      rw [mem_upTo] at h2
      omega

/-- C6 amended, on the arrivals `2, 0, 3` after the first two of them. -/
theorem buffer_keys_iff_witness :
    (orderings [⟨2, "c"⟩, ⟨0, "a"⟩, ⟨3, "d"⟩]).Nodup ∧
    ((bufGet 2 (resequence (List.take 2 [⟨2, "c"⟩, ⟨0, "a"⟩, ⟨3, "d"⟩])).buffer).isSome = true ↔
      ((2 : Int) ∈ orderings (List.take 2 [⟨2, "c"⟩, ⟨0, "a"⟩, ⟨3, "d"⟩]) ∧
        (resequence (List.take 2 [⟨2, "c"⟩, ⟨0, "a"⟩, ⟨3, "d"⟩])).nextExpected < 2)) :=
  ⟨by decide,
    (buffer_keys_iff [⟨2, "c"⟩, ⟨0, "a"⟩, ⟨3, "d"⟩] (by decide) (by decide) 2).1 2⟩

/-- C10 as stated fails: after the arrivals `0, 0, 0` the second result, which
arrived below the watermark and was stored, is no longer in the buffer when the
input ends: the third arrival has overwritten it under the same key. -/
theorem stale_result_overwritten :
    (⟨0, "b"⟩ : MessageResult).Ordering < (resequence [⟨0, "a"⟩]).nextExpected ∧
    bufGet 0 (resequence ([⟨0, "a"⟩] ++ [⟨0, "b"⟩])).buffer = some ⟨0, "b"⟩ ∧
    (resequence ([⟨0, "a"⟩] ++ ⟨0, "b"⟩ :: [⟨0, "c"⟩])).buffer = [(0, ⟨0, "c"⟩)] ∧
    ¬ ∃ k, ((k, ⟨0, "b"⟩) : Int × MessageResult) ∈
      (resequence ([⟨0, "a"⟩] ++ ⟨0, "b"⟩ :: [⟨0, "c"⟩])).buffer := by
  refine ⟨by decide, by decide, by decide, ?_⟩
  rintro ⟨k, hk⟩
  have hb : (resequence ([⟨0, "a"⟩] ++ ⟨0, "b"⟩ :: [⟨0, "c"⟩])).buffer = [(0, ⟨0, "c"⟩)] := by
    decide
  rw [hb] at hk
  simp at hk

/-- C10, amended: a result `r` that arrives with a sequence number strictly below
the current `nextExpected` is stored in the buffer; from then on nothing with a
sequence number at or below that of `r` is sent to `printerChan`; the sequence number of `r`
is still a key of the buffer when the input ends, holding `r` or a later arrival
with the same sequence number (`r` itself when no later arrival has it), so the
final buffer is non-empty although every sequence number from `0` up to the final
`nextExpected` has arrived. -/
theorem stale_arrival_stays_buffered (pre : List MessageResult) (r : MessageResult)
    (post : List MessageResult)
    (hstale : r.Ordering < (resequence pre).nextExpected) :
    bufGet r.Ordering (resequence (pre ++ [r])).buffer = some r ∧
    (∃ later, (resequence (pre ++ r :: post)).printerChan =
        (resequence pre).printerChan ++ later ∧
      ∀ y ∈ later, r.Ordering < y.Ordering) ∧
    (∃ v, bufGet r.Ordering (resequence (pre ++ r :: post)).buffer = some v ∧
      v.Ordering = r.Ordering ∧ v ∈ r :: post) ∧
    ((∀ x ∈ post, x.Ordering ≠ r.Ordering) →
      bufGet r.Ordering (resequence (pre ++ r :: post)).buffer = some r) ∧
    (resequence (pre ++ r :: post)).buffer ≠ [] ∧
    (∀ k : Int, 0 ≤ k → k < (resequence (pre ++ r :: post)).nextExpected →
      k ∈ orderings (pre ++ r :: post)) := by
  obtain ⟨_, ⟨later, h2, h2'⟩, ⟨v, h3, h3'⟩, h4⟩ := stale_frame pre r hstale post
  have h0 := (stale_frame pre r hstale []).2.2.2 (by simp)
  have hinv := (resequence_inv (pre ++ r :: post)).1
  refine ⟨h0, ⟨later, h2, ?_⟩, ⟨v, h3, (hinv.keyed _ _ h3).1, h3'⟩, h4, ?_, hinv.below⟩
  · intro y hy
    have := h2' y hy
    omega
  · intro hnil
    rw [hnil] at h3
    simp [bufGet] at h3

/-- C10 amended, on the arrivals `0, 1, 0, 2`: the second `0` is stale. -/
theorem stale_arrival_stays_buffered_witness :
    (⟨0, "late"⟩ : MessageResult).Ordering < (resequence [⟨0, "a"⟩, ⟨1, "b"⟩]).nextExpected ∧
    bufGet 0 (resequence ([⟨0, "a"⟩, ⟨1, "b"⟩] ++ [⟨0, "late"⟩])).buffer = some ⟨0, "late"⟩ ∧
    (resequence ([⟨0, "a"⟩, ⟨1, "b"⟩] ++ ⟨0, "late"⟩ :: [⟨2, "c"⟩])).buffer ≠ [] :=
  ⟨by decide,
    (stale_arrival_stays_buffered [⟨0, "a"⟩, ⟨1, "b"⟩] ⟨0, "late"⟩ [⟨2, "c"⟩] (by decide)).1,
    (stale_arrival_stays_buffered [⟨0, "a"⟩, ⟨1, "b"⟩] ⟨0, "late"⟩ [⟨2, "c"⟩]
      (by decide)).2.2.2.2.1⟩

/-- C7: for every `N ≥ 1`, when the results arrive in reverse order
`N-1, N-2, ..., 0`, nothing is sent during the first `N-1` arrivals and the buffer
then holds exactly those `N-1` results, each under its sequence number; processing
the arrival of sequence `0` sends all `N` results in that single step, in
ascending order, and leaves the buffer empty. -/
theorem reverse_arrival_burst (N : Nat) (hN : 1 ≤ N) (arrivals : List MessageResult)
    (hrev : orderings arrivals = (upTo N).reverse) :
    (∀ j, j ≤ N - 1 → (resequence (arrivals.take j)).printerChan = []) ∧
    (∀ k v, bufGet k (resequence (arrivals.take (N - 1))).buffer = some v ↔
      (v ∈ arrivals.take (N - 1) ∧ v.Ordering = k)) ∧
    (resequence arrivals).printerChan = arrivals.reverse ∧
    orderings (resequence arrivals).printerChan = upTo N ∧
    (resequence arrivals).buffer = [] := by
  obtain ⟨n, rfl⟩ : ∃ n, N = n + 1 := ⟨N - 1, by omega⟩
  simp only [Nat.add_sub_cancel]
  have hnd : (orderings arrivals).Nodup := by
    rw [hrev]
    exact List.nodup_reverse.mpr (upTo_nodup _)
  have hperm : (orderings arrivals).Perm (upTo (n + 1)) := by
    rw [hrev]
    exact List.reverse_perm _
  have hfront : orderings (arrivals.take n) = ((upTo n).map (fun i => i + 1)).reverse := by
    have h1 : orderings (arrivals.take n) = (orderings arrivals).take n := by
      simp [orderings, List.map_take]
    rw [h1, hrev, upTo_succ_reverse]
    apply List.take_left'
    simp [upTo_length]
  have hne : ∀ r ∈ arrivals.take n, r.Ordering ≠ 0 := by
    intro r hr h0
    have : r.Ordering ∈ orderings (arrivals.take n) := List.mem_map_of_mem _ hr
    rw [hfront, List.mem_reverse, List.mem_map] at this
    obtain ⟨i, hi, hi'⟩ := this
    have := (mem_upTo.mp hi).1
    omega
  obtain ⟨hnext, hsent, hbuf⟩ := resequence_complete (n + 1) arrivals hperm
  refine ⟨?_, ?_, ?_, hsent, hbuf⟩
  · intro j hj
    apply (resequence_waiting _ _).1
    intro r hr
    apply hne r
    have : arrivals.take j = (arrivals.take n).take j := by
      rw [List.take_take, Nat.min_eq_left hj]
    rw [this] at hr
    exact List.mem_of_mem_take hr
  · intro k v
    obtain ⟨hinv, -⟩ := resequence_inv (arrivals.take n)
    have hw := (resequence_waiting _ hne).2
    constructor
    · intro hk
      have := hinv.keyed k v hk
      exact ⟨this.2, this.1⟩
    · rintro ⟨hv, hvk⟩
      have hpos : 0 ≤ v.Ordering := by
        have : v.Ordering ∈ orderings arrivals :=
          List.mem_map_of_mem _ (List.mem_of_mem_take hv)
        rw [hperm.mem_iff, mem_upTo] at this
        exact this.1
      have hsome := hinv.pending v hv (by rw [hw]; exact hpos)
      obtain ⟨w, hw'⟩ := Option.isSome_iff_exists.mp hsome
      have hwk := hinv.keyed _ _ hw'
      have : w = v :=
        ordering_injOn arrivals hnd w (List.mem_of_mem_take hwk.2) v
          (List.mem_of_mem_take hv) hwk.1
      rw [← hvk, hw', this]
  · apply eq_of_map_eq_of_injOn MessageResult.Ordering arrivals (ordering_injOn arrivals hnd)
    · exact (resequence_inv arrivals).1.sentFrom
    · intro x hx
      exact List.mem_reverse.mp hx
    · have : orderings (resequence arrivals).printerChan = orderings arrivals.reverse := by
        rw [hsent]
        simp only [orderings, List.map_reverse] at hrev ⊢
        rw [hrev, List.reverse_reverse]
      exact this

/-- C7 at `N = 4`: the arrivals `3, 2, 1, 0`. -/
theorem reverse_arrival_burst_witness :
    1 ≤ 4 ∧
    orderings [⟨3, "d"⟩, ⟨2, "c"⟩, ⟨1, "b"⟩, ⟨0, "a"⟩] = (upTo 4).reverse ∧
    (resequence (List.take 3 [⟨3, "d"⟩, ⟨2, "c"⟩, ⟨1, "b"⟩, ⟨0, "a"⟩])).printerChan = [] ∧
    (resequence [⟨3, "d"⟩, ⟨2, "c"⟩, ⟨1, "b"⟩, ⟨0, "a"⟩]).printerChan =
      [⟨0, "a"⟩, ⟨1, "b"⟩, ⟨2, "c"⟩, ⟨3, "d"⟩] :=
  ⟨by decide, by decide,
    (reverse_arrival_burst 4 (by decide) [⟨3, "d"⟩, ⟨2, "c"⟩, ⟨1, "b"⟩, ⟨0, "a"⟩]
      (by decide)).1 3 (by decide),
    (reverse_arrival_burst 4 (by decide) [⟨3, "d"⟩, ⟨2, "c"⟩, ⟨1, "b"⟩, ⟨0, "a"⟩]
      (by decide)).2.2.1⟩

theorem run_from (events : List Event) (g₀ g : Goroutine)
    (h : g₀.run events = some g) :
    g.loop = (received events).foldl onResult g₀.loop ∧
    (g.printerClosed = true ↔ g₀.printerClosed = true ∨ Event.inputClosed ∈ events) ∧
    (g.ctxDone = true ↔ g₀.ctxDone = true ∨ Event.cancel ∈ events) := by
  induction events generalizing g₀ with
  | nil =>
    simp only [Goroutine.run, Option.some.injEq] at h
    subst h
    simp [received]
  | cons e es ih =>
    rw [Goroutine.run] at h
    cases hs : g₀.step e with
    | none => rw [hs] at h; cases h
    | some g₁ =>
      rw [hs, Option.some_bind] at h
      obtain ⟨i1, i2, i3⟩ := ih g₁ h
      cases e with
      | cancel =>
        simp only [Goroutine.step, Option.some.injEq] at hs
        subst hs
        simp only at i1 i2 i3
        refine ⟨by simpa [received] using i1, ?_, ?_⟩
        · rw [i2]; simp
        · rw [i3]; simp
      | receive r =>
        simp only [Goroutine.step] at hs
        split_ifs at hs with hc
        simp only [Option.some.injEq] at hs
        subst hs
        simp only at i1 i2 i3
        refine ⟨by simpa [received] using i1, ?_, ?_⟩
        · rw [i2]; simp
        · rw [i3]; simp
      | inputClosed =>
        simp only [Goroutine.step] at hs
        split_ifs at hs with hc
        simp only [Option.some.injEq] at hs
        subst hs
        simp only at i1 i2 i3
        refine ⟨by simpa [received] using i1, ?_, ?_⟩
        · rw [i2]; simp
        · rw [i3]; simp

/-- C9 as stated fails: with `ctx` already cancelled the goroutine still receives
from `resultChan`, still sends to `printerChan` (the arriving result and what its
buffer holds, which it has not discarded), and has not closed `printerChan`. -/
theorem resequencer_receives_after_cancel :
    Goroutine.init.run
        [Event.receive ⟨1, "FINISH TASK 1"⟩, Event.cancel, Event.receive ⟨0, "FINISH TASK 0"⟩] =
      some { ctxDone := true
             loop := { buffer := [], nextExpected := 2
                       printerChan := [⟨0, "FINISH TASK 0"⟩, ⟨1, "FINISH TASK 1"⟩] }
             printerClosed := false } := by
  decide

/-- C9, amended: the resequencer goroutine does not observe `ctx`.  In every state
in which it has not returned, cancelled or not, it receives the next result from
`resultChan` and runs the loop body on it; whatever the events, cancellations
included, its buffer, watermark and sends are those of the loop run on all the
results received, and `printerChan` is closed exactly when `resultChan` has been
found closed. -/
theorem resequencer_runs_until_input_closed (events : List Event) (g : Goroutine)
    (hrun : Goroutine.init.run events = some g) :
    g.loop = resequence (received events) ∧
    (g.printerClosed = true ↔ Event.inputClosed ∈ events) ∧
    (g.ctxDone = true ↔ Event.cancel ∈ events) ∧
    (∀ r, g.printerClosed = false →
      Goroutine.step { g with ctxDone := true } (Event.receive r) =
        some { ctxDone := true, loop := onResult g.loop r, printerClosed := false }) := by
  obtain ⟨h1, h2, h3⟩ := run_from events _ g hrun
  refine ⟨h1, by simpa [Goroutine.init] using h2, by simpa [Goroutine.init] using h3, ?_⟩
  intro r hc
  simp [Goroutine.step, hc]

/-- C9 amended, on a run in which `ctx` is cancelled between two arrivals. -/
theorem resequencer_runs_until_input_closed_witness :
    Goroutine.init.run
        [Event.receive ⟨1, "b"⟩, Event.cancel, Event.receive ⟨0, "a"⟩, Event.inputClosed] =
      some { ctxDone := true
             loop := { buffer := [], nextExpected := 2, printerChan := [⟨0, "a"⟩, ⟨1, "b"⟩] }
             printerClosed := true } ∧
    ({ buffer := [], nextExpected := 2, printerChan := [⟨0, "a"⟩, ⟨1, "b"⟩] } : Resequencer) =
      resequence (received
        [Event.receive ⟨1, "b"⟩, Event.cancel, Event.receive ⟨0, "a"⟩, Event.inputClosed]) :=
  ⟨by decide,
    (resequencer_runs_until_input_closed
      [Event.receive ⟨1, "b"⟩, Event.cancel, Event.receive ⟨0, "a"⟩, Event.inputClosed]
      { ctxDone := true
        loop := { buffer := [], nextExpected := 2, printerChan := [⟨0, "a"⟩, ⟨1, "b"⟩] }
        printerClosed := true } (by decide)).1⟩

/-! ## Invariants of `processMessage` -/

theorem setPC_length (ws : List Worker) (k : Nat) (pc : WorkerPC) :
    (setPC ws k pc).length = ws.length := by
  induction ws generalizing k with
  | nil => rfl
  | cons w ws ih =>
    cases k with
    | zero => rfl
    | succ k => simp [setPC, ih]

theorem getPC_setPC_self {ws : List Worker} {k : Nat} {old : WorkerPC}
    (h : getPC ws k = some old) (pc : WorkerPC) : getPC (setPC ws k pc) k = some pc := by
  induction ws generalizing k with
  | nil => simp [getPC] at h
  | cons w ws ih =>
    cases k with
    | zero => rfl
    | succ k => exact ih h

theorem getPC_setPC_ne {k k' : Nat} (hne : k' ≠ k) (ws : List Worker) (pc : WorkerPC) :
    getPC (setPC ws k pc) k' = getPC ws k' := by
  induction ws generalizing k k' with
  | nil => rfl
  | cons w ws ih =>
    cases k with
    | zero =>
      cases k' with
      | zero => exact absurd rfl hne
      | succ k' => rfl
    | succ k =>
      cases k' with
      | zero => rfl
      | succ k' => exact ih (fun h => hne (congrArg Nat.succ h))

theorem getPC_lt {ws : List Worker} {k : Nat} {pc : WorkerPC} (h : getPC ws k = some pc) :
    k < ws.length := by
  induction ws generalizing k with
  | nil => simp [getPC] at h
  | cons w ws ih =>
    cases k with
    | zero => simp
    | succ k =>
      have := ih h
      simp only [List.length_cons]
      omega

theorem getPC_append_lt {ws : List Worker} {k : Nat} (h : k < ws.length) (w : Worker) :
    getPC (ws ++ [w]) k = getPC ws k := by
  induction ws generalizing k with
  | nil => simp at h
  | cons v ws ih =>
    cases k with
    | zero => rfl
    | succ k => exact ih (by simpa using h)

theorem getPC_append_length (ws : List Worker) (w : Worker) :
    getPC (ws ++ [w]) ws.length = some w.pc := by
  induction ws with
  | nil => rfl
  | cons v ws ih => exact ih

theorem getPC_none {ws : List Worker} {k : Nat} (h : ws.length ≤ k) : getPC ws k = none := by
  induction ws generalizing k with
  | nil => rfl
  | cons w ws ih =>
    cases k with
    | zero => simp at h
    | succ k => exact ih (by simpa using h)

theorem getPC_mem {ws : List Worker} {k : Nat} {pc : WorkerPC} (h : getPC ws k = some pc) :
    ∃ w ∈ ws, w.pc = pc := by
  induction ws generalizing k with
  | nil => simp [getPC] at h
  | cons w ws ih =>
    cases k with
    | zero =>
      simp only [getPC, Option.some.injEq] at h
      exact ⟨w, by simp, h⟩
    | succ k =>
      obtain ⟨v, hv, hpc⟩ := ih h
      exact ⟨v, by simp [hv], hpc⟩

/-- Moving one worker changes a count of workers by the worker moved. -/
theorem countP_setPC (p : WorkerPC → Bool) {ws : List Worker} {k : Nat} {old : WorkerPC}
    (h : getPC ws k = some old) (new : WorkerPC) :
    (setPC ws k new).countP (fun w => p w.pc) + (p old).toNat
      = ws.countP (fun w => p w.pc) + (p new).toNat := by
  induction ws generalizing k with
  | nil => simp [getPC] at h
  | cons w ws ih =>
    cases k with
    | zero =>
      simp only [getPC, Option.some.injEq] at h
      subst h
      simp only [setPC, List.countP_cons]
      cases p w.pc <;> cases p new <;> simp
    | succ k =>
      have := ih h
      simp only [setPC, List.countP_cons]
      omega

theorem holds_setPC {ws : List Worker} {k : Nat} {old : WorkerPC}
    (h : getPC ws k = some old) (new : WorkerPC) :
    (setPC ws k new).countP holdsToken + (holdsPC old).toNat
      = ws.countP holdsToken + (holdsPC new).toNat :=
  countP_setPC holdsPC h new

theorem exited_setPC {ws : List Worker} {k : Nat} {old : WorkerPC}
    (h : getPC ws k = some old) (new : WorkerPC) :
    (setPC ws k new).countP hasExited + (exitedPC old).toNat
      = ws.countP hasExited + (exitedPC new).toNat :=
  countP_setPC exitedPC h new

theorem sound_init {ctxDone : Bool} {numberOfTask : Int} {s : State}
    (h : processMessage ctxDone numberOfTask = some s) : Sound numberOfTask s := by
  unfold processMessage at h
  split_ifs at h with hneg
  simp only [Option.some.injEq] at h
  subst h
  exact
    { nonneg := by omega
      tokens := rfl
      bound := Nat.zero_le _
      started := rfl
      placed := by simp only [wellPlaced]; omega
      done := rfl
      closed := by simp
      noPanic := rfl }

/-- Once `messageResultChan` is closed every worker has been started and has
returned. -/
theorem sound_allExited {numberOfTask : Int} {s : State} (h : Sound numberOfTask s)
    (hd : s.dispatcher = DispatcherPC.exited) : allExited numberOfTask s := by
  have h1 := h.started
  have h2 := h.done
  rw [hd] at h1 h2
  simp only [startedOf, receivedOf] at h1 h2
  have h3 := List.countP_le_length hasExited (l := s.workers)
  refine ⟨h1, ?_⟩
  have h4 : s.workers.countP hasExited = s.workers.length := by omega
  intro w hw
  have := (List.countP_eq_length (p := hasExited)).mp h4 w hw
  simp only [hasExited] at this
  cases hpc : w.pc <;> simp [hpc, exitedPC] at this ⊢

theorem sound_step {numberOfTask : Int} {s s' : State} {a : Action}
    (h : Sound numberOfTask s) (hs : step numberOfTask s a = some s') :
    Sound numberOfTask s' := by
  have hall := sound_allExited h
  obtain ⟨hN, htok, hbound, hstart, hplaced, hdone, hclosed, hpanic⟩ := h
  cases a with
  | cancel =>
    simp only [RestoringSequencing.step, Option.some.injEq] at hs
    subst hs
    exact ⟨hN, htok, hbound, hstart, hplaced, hdone, hclosed, hpanic⟩
  | acquire =>
    simp only [RestoringSequencing.step] at hs
    split at hs
    · rename_i numberTask hd
      split_ifs at hs with hg
      simp only [Option.some.injEq] at hs
      subst hs
      simp only [inFlight, hd, dispatcherHolds, startedOf, wellPlaced, receivedOf,
        semaphoreCap] at htok hbound hstart hplaced hdone hclosed
      refine ⟨hN, ?_, ?_, ?_, ?_, ?_, ?_, hpanic⟩ <;>
        (try simp only [inFlight, dispatcherHolds, startedOf, wellPlaced, receivedOf,
          List.countP_append, List.length_append, List.length_singleton, List.countP_cons,
          List.countP_nil, holdsToken, holdsPC, hasExited, exitedPC]) <;>
        first
          | omega
          | (push_cast; omega)
          | trivial
          | (simpa using hclosed)
          | simp
    · cases hs
  | spawn =>
    simp only [RestoringSequencing.step] at hs
    split at hs
    · rename_i numberTask hd
      simp only [Option.some.injEq] at hs
      subst hs
      simp only [inFlight, hd, dispatcherHolds, startedOf, wellPlaced, receivedOf,
        semaphoreCap] at htok hbound hstart hplaced hdone hclosed
      refine ⟨hN, ?_, ?_, ?_, ?_, ?_, ?_, hpanic⟩ <;>
        (try simp only [inFlight, dispatcherHolds, startedOf, wellPlaced, receivedOf,
          List.countP_append, List.length_append, List.length_singleton, List.countP_cons,
          List.countP_nil, holdsToken, holdsPC, hasExited, exitedPC]) <;>
        first
          | omega
          | (push_cast; omega)
          | trivial
          | (simpa using hclosed)
          | simp
    · cases hs
  | enterWait =>
    simp only [RestoringSequencing.step] at hs
    split at hs
    · rename_i numberTask hd
      split_ifs at hs with hg
      simp only [Option.some.injEq] at hs
      subst hs
      simp only [inFlight, hd, dispatcherHolds, startedOf, wellPlaced, receivedOf,
        semaphoreCap] at htok hbound hstart hplaced hdone hclosed
      refine ⟨hN, ?_, ?_, ?_, ?_, ?_, ?_, hpanic⟩ <;>
        (try simp only [inFlight, dispatcherHolds, startedOf, wellPlaced, receivedOf,
          List.countP_append, List.length_append, List.length_singleton, List.countP_cons,
          List.countP_nil, holdsToken, holdsPC, hasExited, exitedPC]) <;>
        first
          | omega
          | (push_cast; omega)
          | trivial
          | (simpa using hclosed)
          | simp
    · cases hs
  | recvDone =>
    simp only [RestoringSequencing.step] at hs
    split at hs
    · rename_i i hd
      split_ifs at hs with hg
      simp only [Option.some.injEq] at hs
      subst hs
      simp only [inFlight, hd, dispatcherHolds, startedOf, wellPlaced, receivedOf,
        semaphoreCap] at htok hbound hstart hplaced hdone hclosed
      refine ⟨hN, ?_, ?_, ?_, ?_, ?_, ?_, hpanic⟩ <;>
        (try simp only [inFlight, dispatcherHolds, startedOf, wellPlaced, receivedOf,
          List.countP_append, List.length_append, List.length_singleton, List.countP_cons,
          List.countP_nil, holdsToken, holdsPC, hasExited, exitedPC]) <;>
        first
          | omega
          | (push_cast; omega)
          | trivial
          | (simpa using hclosed)
          | simp
    · cases hs
  | closeResults =>
    simp only [RestoringSequencing.step] at hs
    split at hs
    · rename_i i hd
      split_ifs at hs with hg
      simp only [Option.some.injEq] at hs
      subst hs
      simp only [inFlight, hd, dispatcherHolds, startedOf, wellPlaced, receivedOf,
        semaphoreCap] at htok hbound hstart hplaced hdone hclosed
      refine ⟨hN, ?_, ?_, ?_, ?_, ?_, ?_, hpanic⟩ <;>
        (try simp only [inFlight, dispatcherHolds, startedOf, wellPlaced, receivedOf,
          List.countP_append, List.length_append, List.length_singleton, List.countP_cons,
          List.countP_nil, holdsToken, holdsPC, hasExited, exitedPC]) <;>
        first
          | omega
          | (push_cast; omega)
          | trivial
          | (simpa using hclosed)
          | simp
    · cases hs
  | work k =>
    simp only [RestoringSequencing.step] at hs
    split_ifs at hs with hg
    simp only [Option.some.injEq] at hs
    subst hs
    have e1 := holds_setPC hg WorkerPC.selecting
    have e2 := exited_setPC hg WorkerPC.selecting
    simp only [holdsPC, exitedPC, Bool.toNat_true, Bool.toNat_false] at e1 e2
    simp only [inFlight, semaphoreCap] at htok hbound
    refine ⟨hN, ?_, ?_, ?_, ?_, ?_, ?_, hpanic⟩ <;>
      (try simp only [inFlight, setPC_length, semaphoreCap]) <;>
      first
        | omega
        | (push_cast; omega)
        | assumption
        | (simpa [hopen] using hclosed)
  | publish k =>
    simp only [RestoringSequencing.step] at hs
    by_cases hg : getPC s.workers k = some WorkerPC.selecting
    · rw [if_pos hg] at hs
      have hopen : s.messageResultClosed = false := by
        cases hc : s.messageResultClosed with
        | false => rfl
        | true =>
          exfalso
          obtain ⟨w, hw, hwpc⟩ := getPC_mem hg
          have := (hall (hclosed.mp hc)).2 w hw
          rw [hwpc] at this
          cases this
      cases ht : getTask s.workers k with
      | none => rw [ht] at hs; cases hs
      | some numberTask =>
        rw [ht] at hs
        simp only [hopen, Bool.false_eq_true, if_false, Option.some.injEq] at hs
        subst hs
        have e1 := holds_setPC hg WorkerPC.releasing
        have e2 := exited_setPC hg WorkerPC.releasing
        simp only [holdsPC, exitedPC, Bool.toNat_true, Bool.toNat_false] at e1 e2
        simp only [inFlight, semaphoreCap] at htok hbound
        refine ⟨hN, ?_, ?_, ?_, ?_, ?_, ?_, hpanic⟩ <;>
          (try simp only [inFlight, setPC_length, semaphoreCap]) <;>
          first
            | omega
            | (push_cast; omega)
            | assumption
            | (simpa [hopen] using hclosed)
    · rw [if_neg hg] at hs; cases hs
  | abandon k =>
    simp only [RestoringSequencing.step] at hs
    split_ifs at hs with hg
    simp only [Option.some.injEq] at hs
    subst hs
    have e1 := holds_setPC hg.1 WorkerPC.releasing
    have e2 := exited_setPC hg.1 WorkerPC.releasing
    simp only [holdsPC, exitedPC, Bool.toNat_true, Bool.toNat_false] at e1 e2
    simp only [inFlight, semaphoreCap] at htok hbound
    refine ⟨hN, ?_, ?_, ?_, ?_, ?_, ?_, hpanic⟩ <;>
      (try simp only [inFlight, setPC_length, semaphoreCap]) <;>
      first
        | omega
        | (push_cast; omega)
        | assumption
        | (simpa [hopen] using hclosed)
  | release k =>
    simp only [RestoringSequencing.step] at hs
    split_ifs at hs with hg
    simp only [Option.some.injEq] at hs
    subst hs
    have e1 := holds_setPC hg.1 WorkerPC.signalling
    have e2 := exited_setPC hg.1 WorkerPC.signalling
    simp only [holdsPC, exitedPC, Bool.toNat_true, Bool.toNat_false] at e1 e2
    simp only [inFlight, semaphoreCap] at htok hbound
    refine ⟨hN, ?_, ?_, ?_, ?_, ?_, ?_, hpanic⟩ <;>
      (try simp only [inFlight, setPC_length, semaphoreCap]) <;>
      first
        | omega
        | (push_cast; omega)
        | assumption
        | (simpa [hopen] using hclosed)
  | signalDone k =>
    simp only [RestoringSequencing.step] at hs
    split_ifs at hs with hg
    simp only [Option.some.injEq] at hs
    subst hs
    have e1 := holds_setPC hg.1 WorkerPC.exited
    have e2 := exited_setPC hg.1 WorkerPC.exited
    simp only [holdsPC, exitedPC, Bool.toNat_true, Bool.toNat_false] at e1 e2
    simp only [inFlight, semaphoreCap] at htok hbound
    refine ⟨hN, ?_, ?_, ?_, ?_, ?_, ?_, hpanic⟩ <;>
      (try simp only [inFlight, setPC_length, semaphoreCap]) <;>
      first
        | omega
        | (push_cast; omega)
        | assumption
        | (simpa [hopen] using hclosed)

/-! ## Runs of `processMessage` -/

theorem exec_append (numberOfTask : Int) (s : State) (tr : List Action) (a : Action) :
    exec numberOfTask s (tr ++ [a]) =
      (exec numberOfTask s tr).bind (fun s' => step numberOfTask s' a) := by
  induction tr generalizing s with
  | nil =>
    simp only [List.nil_append, exec, Option.some_bind]
    cases step numberOfTask s a <;> rfl
  | cons b tr ih =>
    rw [List.cons_append, exec, exec]
    cases step numberOfTask s b with
    | none => rfl
    | some s₁ => rw [Option.some_bind, Option.some_bind, ih]

theorem reach_append (ctxDone : Bool) (numberOfTask : Int) (tr : List Action) (a : Action) :
    reach ctxDone numberOfTask (tr ++ [a]) =
      (reach ctxDone numberOfTask tr).bind (fun s' => step numberOfTask s' a) := by
  unfold reach
  cases processMessage ctxDone numberOfTask with
  | none => rfl
  | some s => simp only [Option.some_bind, exec_append]

/-- Induction over the runs of `processMessage`: a property of (trace, state) that
holds at the start and is kept by every action holds of every run. -/
theorem reach_induction (ctxDone : Bool) (numberOfTask : Int)
    (P : List Action → State → Prop)
    (hinit : ∀ s, processMessage ctxDone numberOfTask = some s → P [] s)
    (hstep : ∀ tr s a s', reach ctxDone numberOfTask tr = some s → P tr s →
      step numberOfTask s a = some s' → P (tr ++ [a]) s')
    (tr : List Action) (s : State) (h : reach ctxDone numberOfTask tr = some s) : P tr s := by
  induction tr using List.reverseRecOn generalizing s with
  | nil =>
    apply hinit
    unfold reach at h
    cases hp : processMessage ctxDone numberOfTask with
    | none => rw [hp] at h; cases h
    | some s₀ =>
      rw [hp] at h
      simp only [Option.some_bind, exec, Option.some.injEq] at h
      rw [h]
  | append_singleton tr a ih =>
    rw [reach_append] at h
    cases hr : reach ctxDone numberOfTask tr with
    | none => rw [hr] at h; cases h
    | some s₁ =>
      rw [hr, Option.some_bind] at h
      exact hstep tr s₁ a s hr (ih s₁ hr) h

/-- The invariant holds in every state `processMessage` reaches. -/
theorem sound_reach {ctxDone : Bool} {numberOfTask : Int} {tr : List Action} {s : State}
    (h : reach ctxDone numberOfTask tr = some s) : Sound numberOfTask s :=
  reach_induction ctxDone numberOfTask (fun _ s => Sound numberOfTask s)
    (fun _ hs => sound_init hs) (fun _ _ _ _ _ hP hs => sound_step hP hs) tr s h

/-! ## What a trace says about each worker -/

theorem getPC_setPC {ws : List Worker} {k₀ : Nat} {old : WorkerPC}
    (h : getPC ws k₀ = some old) (new : WorkerPC) (k : Nat) :
    getPC (setPC ws k₀ new) k = if k = k₀ then some new else getPC ws k := by
  by_cases hk : k = k₀
  · rw [if_pos hk, hk]
    exact getPC_setPC_self h new
  · rw [if_neg hk]
    exact getPC_setPC_ne hk ws new

theorem getPC_spawn (ws : List Worker) (numberTask : Int) (k : Nat) :
    getPC (ws ++ [⟨numberTask, WorkerPC.working⟩]) k = getPC ws k ∨
    (getPC (ws ++ [⟨numberTask, WorkerPC.working⟩]) k = some WorkerPC.working ∧
      getPC ws k = none) := by
  rcases Nat.lt_trichotomy k ws.length with hlt | heq | hgt
  · exact Or.inl (getPC_append_lt hlt _)
  · right
    rw [heq]
    exact ⟨getPC_append_length ws _, getPC_none (le_refl _)⟩
  · left
    rw [getPC_none (by simp; omega), getPC_none (by omega)]

theorem count_snoc (tr : List Action) (a x : Action) :
    (tr ++ [a]).count x = tr.count x + (if a = x then 1 else 0) := by
  rw [List.count_append, List.count_cons, List.count_nil, Nat.zero_add]
  by_cases h : a = x <;> simp [h]

theorem counted_init {ctxDone : Bool} {numberOfTask : Int} {s : State}
    (h : processMessage ctxDone numberOfTask = some s) : Counted numberOfTask [] s := by
  unfold processMessage at h
  split_ifs at h with hneg
  simp only [Option.some.injEq] at h
  subst h
  exact ⟨fun _ => rfl, fun _ => rfl, fun _ => rfl, rfl⟩

theorem counted_step {numberOfTask : Int} {tr : List Action} {s s' : State} {a : Action}
    (hsound : Sound numberOfTask s) (h : Counted numberOfTask tr s)
    (hs : step numberOfTask s a = some s') : Counted numberOfTask (tr ++ [a]) s' := by
  cases a with
  | cancel =>
    simp only [RestoringSequencing.step, Option.some.injEq] at hs
    subst hs
    refine ⟨fun k => ?_, fun k => ?_, fun k => ?_, ?_⟩
    · rw [count_snoc, if_neg (by simp), Nat.add_zero]
      exact h.released k
    · rw [count_snoc, if_neg (by simp), Nat.add_zero]
      exact h.reported k
    · rw [count_snoc, count_snoc, if_neg (by simp), if_neg (by simp), Nat.add_zero,
        Nat.add_zero]
      exact h.selected k
    · rw [count_snoc, if_neg (by simp), Nat.add_zero]
      exact h.received
  | acquire =>
    simp only [RestoringSequencing.step] at hs
    split at hs
    · rename_i numberTask hd
      split_ifs at hs with hg
      simp only [Option.some.injEq] at hs
      subst hs
      have hrec := h.received
      have hplaced := hsound.placed
      simp only [hd, receivedOf, wellPlaced] at hrec hplaced
      refine ⟨fun k => ?_, fun k => ?_, fun k => ?_, ?_⟩
      · rw [count_snoc, if_neg (by simp), Nat.add_zero]
        exact h.released k
      · rw [count_snoc, if_neg (by simp), Nat.add_zero]
        exact h.reported k
      · rw [count_snoc, count_snoc, if_neg (by simp), if_neg (by simp), Nat.add_zero,
          Nat.add_zero]
        exact h.selected k
      · rw [count_snoc]
        simp only [receivedOf]
        rw [if_neg Action.noConfusion, Nat.add_zero]
        exact hrec
    · cases hs
  | spawn =>
    simp only [RestoringSequencing.step] at hs
    split at hs
    · rename_i numberTask hd
      simp only [Option.some.injEq] at hs
      subst hs
      have hrec := h.received
      have hplaced := hsound.placed
      simp only [hd, receivedOf, wellPlaced] at hrec hplaced
      refine ⟨fun k => ?_, fun k => ?_, fun k => ?_, ?_⟩
      · rw [count_snoc, if_neg (by simp), Nat.add_zero, h.released k]
        rcases getPC_spawn s.workers numberTask k with e | ⟨e, e'⟩
        · rw [e]
        · rw [e, e']; rfl
      · rw [count_snoc, if_neg (by simp), Nat.add_zero, h.reported k]
        rcases getPC_spawn s.workers numberTask k with e | ⟨e, e'⟩
        · rw [e]
        · rw [e, e']; rfl
      · rw [count_snoc, count_snoc, if_neg (by simp), if_neg (by simp), Nat.add_zero,
          Nat.add_zero, h.selected k]
        rcases getPC_spawn s.workers numberTask k with e | ⟨e, e'⟩
        · rw [e]
        · rw [e, e']; rfl
      · rw [count_snoc, if_neg (by simp), Nat.add_zero]
        exact hrec
    · cases hs
  | enterWait =>
    simp only [RestoringSequencing.step] at hs
    split at hs
    · rename_i numberTask hd
      split_ifs at hs with hg
      simp only [Option.some.injEq] at hs
      subst hs
      have hrec := h.received
      have hplaced := hsound.placed
      simp only [hd, receivedOf, wellPlaced] at hrec hplaced
      refine ⟨fun k => ?_, fun k => ?_, fun k => ?_, ?_⟩
      · rw [count_snoc, if_neg (by simp), Nat.add_zero]
        exact h.released k
      · rw [count_snoc, if_neg (by simp), Nat.add_zero]
        exact h.reported k
      · rw [count_snoc, count_snoc, if_neg (by simp), if_neg (by simp), Nat.add_zero,
          Nat.add_zero]
        exact h.selected k
      · rw [count_snoc]
        simp only [receivedOf]
        rw [if_neg Action.noConfusion, Nat.add_zero]
        omega
    · cases hs
  | recvDone =>
    simp only [RestoringSequencing.step] at hs
    split at hs
    · rename_i i hd
      split_ifs at hs with hg
      simp only [Option.some.injEq] at hs
      subst hs
      have hrec := h.received
      have hplaced := hsound.placed
      simp only [hd, receivedOf, wellPlaced] at hrec hplaced
      refine ⟨fun k => ?_, fun k => ?_, fun k => ?_, ?_⟩
      · rw [count_snoc, if_neg (by simp), Nat.add_zero]
        exact h.released k
      · rw [count_snoc, if_neg (by simp), Nat.add_zero]
        exact h.reported k
      · rw [count_snoc, count_snoc, if_neg (by simp), if_neg (by simp), Nat.add_zero,
          Nat.add_zero]
        exact h.selected k
      · rw [count_snoc]
        simp only [receivedOf]
        rw [if_pos trivial]
        push_cast
        omega
    · cases hs
  | closeResults =>
    simp only [RestoringSequencing.step] at hs
    split at hs
    · rename_i i hd
      split_ifs at hs with hg
      simp only [Option.some.injEq] at hs
      subst hs
      have hrec := h.received
      have hplaced := hsound.placed
      simp only [hd, receivedOf, wellPlaced] at hrec hplaced
      refine ⟨fun k => ?_, fun k => ?_, fun k => ?_, ?_⟩
      · rw [count_snoc, if_neg (by simp), Nat.add_zero]
        exact h.released k
      · rw [count_snoc, if_neg (by simp), Nat.add_zero]
        exact h.reported k
      · rw [count_snoc, count_snoc, if_neg (by simp), if_neg (by simp), Nat.add_zero,
          Nat.add_zero]
        exact h.selected k
      · rw [count_snoc]
        simp only [receivedOf]
        rw [if_neg Action.noConfusion, Nat.add_zero]
        omega
    · cases hs
  | work k₀ =>
    simp only [RestoringSequencing.step] at hs
    split_ifs at hs with hg
    simp only [Option.some.injEq] at hs
    subst hs
    refine ⟨fun k => ?_, fun k => ?_, fun k => ?_, ?_⟩
    · rw [count_snoc, getPC_setPC hg]
      have hk := h.released k
      by_cases e : k = k₀
      · subst e
        rw [hg] at hk
        simp [releasedOf, reportedOf, selectedOf] at hk ⊢
        omega
      · have e' : ¬ k₀ = k := fun h' => e h'.symm
        simp [e, e', hk]
    · rw [count_snoc, getPC_setPC hg]
      have hk := h.reported k
      by_cases e : k = k₀
      · subst e
        rw [hg] at hk
        simp [releasedOf, reportedOf, selectedOf] at hk ⊢
        omega
      · have e' : ¬ k₀ = k := fun h' => e h'.symm
        simp [e, e', hk]
    · rw [count_snoc, count_snoc, getPC_setPC hg]
      have hk := h.selected k
      by_cases e : k = k₀
      · subst e
        rw [hg] at hk
        simp [releasedOf, reportedOf, selectedOf] at hk ⊢
        omega
      · have e' : ¬ k₀ = k := fun h' => e h'.symm
        simp [e, e', hk]
    · rw [count_snoc, if_neg (by simp), Nat.add_zero]
      exact h.received
  | publish k₀ =>
    simp only [RestoringSequencing.step] at hs
    by_cases hg : getPC s.workers k₀ = some WorkerPC.selecting
    · rw [if_pos hg] at hs
      have hopen : s.messageResultClosed = false := by
        cases hc : s.messageResultClosed with
        | false => rfl
        | true =>
          exfalso
          obtain ⟨w, hw, hwpc⟩ := getPC_mem hg
          have := (sound_allExited hsound (hsound.closed.mp hc)).2 w hw
          rw [hwpc] at this
          cases this
      cases ht : getTask s.workers k₀ with
      | none => rw [ht] at hs; cases hs
      | some numberTask =>
        rw [ht] at hs
        simp only [hopen, Bool.false_eq_true, if_false, Option.some.injEq] at hs
        subst hs
        refine ⟨fun k => ?_, fun k => ?_, fun k => ?_, ?_⟩
        · rw [count_snoc, getPC_setPC hg]
          have hk := h.released k
          by_cases e : k = k₀
          · subst e
            rw [hg] at hk
            simp [releasedOf, reportedOf, selectedOf] at hk ⊢
            omega
          · have e' : ¬ k₀ = k := fun h' => e h'.symm
            simp [e, e', hk]
        · rw [count_snoc, getPC_setPC hg]
          have hk := h.reported k
          by_cases e : k = k₀
          · subst e
            rw [hg] at hk
            simp [releasedOf, reportedOf, selectedOf] at hk ⊢
            omega
          · have e' : ¬ k₀ = k := fun h' => e h'.symm
            simp [e, e', hk]
        · rw [count_snoc, count_snoc, getPC_setPC hg]
          have hk := h.selected k
          by_cases e : k = k₀
          · subst e
            rw [hg] at hk
            simp [releasedOf, reportedOf, selectedOf] at hk ⊢
            omega
          · have e' : ¬ k₀ = k := fun h' => e h'.symm
            simp [e, e', hk]
        · rw [count_snoc, if_neg (by simp), Nat.add_zero]
          exact h.received
    · rw [if_neg hg] at hs; cases hs
  | abandon k₀ =>
    simp only [RestoringSequencing.step] at hs
    split_ifs at hs with hg
    simp only [Option.some.injEq] at hs
    subst hs
    refine ⟨fun k => ?_, fun k => ?_, fun k => ?_, ?_⟩
    · rw [count_snoc, getPC_setPC hg.1]
      have hk := h.released k
      by_cases e : k = k₀
      · subst e
        rw [hg.1] at hk
        simp [releasedOf, reportedOf, selectedOf] at hk ⊢
        omega
      · have e' : ¬ k₀ = k := fun h' => e h'.symm
        simp [e, e', hk]
    · rw [count_snoc, getPC_setPC hg.1]
      have hk := h.reported k
      by_cases e : k = k₀
      · subst e
        rw [hg.1] at hk
        simp [releasedOf, reportedOf, selectedOf] at hk ⊢
        omega
      · have e' : ¬ k₀ = k := fun h' => e h'.symm
        simp [e, e', hk]
    · rw [count_snoc, count_snoc, getPC_setPC hg.1]
      have hk := h.selected k
      by_cases e : k = k₀
      · subst e
        rw [hg.1] at hk
        simp [releasedOf, reportedOf, selectedOf] at hk ⊢
        omega
      · have e' : ¬ k₀ = k := fun h' => e h'.symm
        simp [e, e', hk]
    · rw [count_snoc, if_neg (by simp), Nat.add_zero]
      exact h.received
  | release k₀ =>
    simp only [RestoringSequencing.step] at hs
    split_ifs at hs with hg
    simp only [Option.some.injEq] at hs
    subst hs
    refine ⟨fun k => ?_, fun k => ?_, fun k => ?_, ?_⟩
    · rw [count_snoc, getPC_setPC hg.1]
      have hk := h.released k
      by_cases e : k = k₀
      · subst e
        rw [hg.1] at hk
        simp [releasedOf, reportedOf, selectedOf] at hk ⊢
        omega
      · have e' : ¬ k₀ = k := fun h' => e h'.symm
        simp [e, e', hk]
    · rw [count_snoc, getPC_setPC hg.1]
      have hk := h.reported k
      by_cases e : k = k₀
      · subst e
        rw [hg.1] at hk
        simp [releasedOf, reportedOf, selectedOf] at hk ⊢
        omega
      · have e' : ¬ k₀ = k := fun h' => e h'.symm
        simp [e, e', hk]
    · rw [count_snoc, count_snoc, getPC_setPC hg.1]
      have hk := h.selected k
      by_cases e : k = k₀
      · subst e
        rw [hg.1] at hk
        simp [releasedOf, reportedOf, selectedOf] at hk ⊢
        omega
      · have e' : ¬ k₀ = k := fun h' => e h'.symm
        simp [e, e', hk]
    · rw [count_snoc, if_neg (by simp), Nat.add_zero]
      exact h.received
  | signalDone k₀ =>
    simp only [RestoringSequencing.step] at hs
    split_ifs at hs with hg
    simp only [Option.some.injEq] at hs
    subst hs
    refine ⟨fun k => ?_, fun k => ?_, fun k => ?_, ?_⟩
    · rw [count_snoc, getPC_setPC hg.1]
      have hk := h.released k
      by_cases e : k = k₀
      · subst e
        rw [hg.1] at hk
        simp [releasedOf, reportedOf, selectedOf] at hk ⊢
        omega
      · have e' : ¬ k₀ = k := fun h' => e h'.symm
        simp [e, e', hk]
    · rw [count_snoc, getPC_setPC hg.1]
      have hk := h.reported k
      by_cases e : k = k₀
      · subst e
        rw [hg.1] at hk
        simp [releasedOf, reportedOf, selectedOf] at hk ⊢
        omega
      · have e' : ¬ k₀ = k := fun h' => e h'.symm
        simp [e, e', hk]
    · rw [count_snoc, count_snoc, getPC_setPC hg.1]
      have hk := h.selected k
      by_cases e : k = k₀
      · subst e
        rw [hg.1] at hk
        simp [releasedOf, reportedOf, selectedOf] at hk ⊢
        omega
      · have e' : ¬ k₀ = k := fun h' => e h'.symm
        simp [e, e', hk]
    · rw [count_snoc, if_neg (by simp), Nat.add_zero]
      exact h.received

/-- The per-worker counts hold of every run of `processMessage`. -/
theorem counted_reach {ctxDone : Bool} {numberOfTask : Int} {tr : List Action} {s : State}
    (h : reach ctxDone numberOfTask tr = some s) : Counted numberOfTask tr s :=
  reach_induction ctxDone numberOfTask (fun tr s => Counted numberOfTask tr s)
    (fun _ hs => counted_init hs)
    (fun _ _ _ _ hr hP hs => counted_step (sound_reach hr) hP hs) tr s h

theorem getPC_of_lt {ws : List Worker} {k : Nat} (h : k < ws.length) :
    ∃ pc, getPC ws k = some pc := by
  induction ws generalizing k with
  | nil => simp at h
  | cons w ws ih =>
    cases k with
    | zero => exact ⟨w.pc, rfl⟩
    | succ k => exact ih (by simpa using h)

theorem allExited_getPC {numberOfTask : Int} {s : State} (h : allExited numberOfTask s)
    {k : Nat} (hk : (k : Int) < numberOfTask) : getPC s.workers k = some WorkerPC.exited := by
  have hlt : k < s.workers.length := by
    have := h.1
    omega
  obtain ⟨pc, hpc⟩ := getPC_of_lt hlt
  obtain ⟨w, hw, hwpc⟩ := getPC_mem hpc
  rw [hpc, ← hwpc, h.2 w hw]

theorem releasedOf_le (o : Option WorkerPC) : releasedOf o ≤ 1 := by
  rcases o with _ | pc
  · simp [releasedOf]
  · cases pc <;> simp [releasedOf]

theorem reportedOf_le (o : Option WorkerPC) : reportedOf o ≤ 1 := by
  rcases o with _ | pc
  · simp [reportedOf]
  · cases pc <;> simp [reportedOf]

theorem countP_holds_of_allExited {ws : List Worker}
    (h : ∀ w ∈ ws, w.pc = WorkerPC.exited) : ws.countP holdsToken = 0 := by
  rw [List.countP_eq_zero]
  intro w hw
  simp [holdsToken, h w hw, holdsPC]

/-! ## `processMessage`: the properties of the specification -/

/-- C3: for every `numberOfTask`, in every state `processMessage` reaches, the
number of tasks that have been admitted (token sent to `semaphoreChan`) and have
not yet released their token is at most 5, the capacity of the semaphore; it is
the number of tokens in `semaphoreChan`. -/
theorem in_flight_at_most_capacity (ctxDone : Bool) (numberOfTask : Int)
    (tr : List Action) (s : State) (h : reach ctxDone numberOfTask tr = some s) :
    inFlight s ≤ 5 ∧ inFlight s = s.semaphoreChan := by
  have hs := sound_reach h
  have h1 := hs.tokens
  have h2 := hs.bound
  simp only [semaphoreCap] at h2
  omega

/-- C3 on a run with six tasks in which five are admitted: the bound is reached. -/
theorem in_flight_at_most_capacity_witness :
    reach false 6
        [Action.acquire, Action.spawn, Action.acquire, Action.spawn, Action.acquire,
          Action.spawn, Action.work 0, Action.acquire, Action.spawn, Action.acquire,
          Action.spawn] =
      some { ctxDone := false, semaphoreChan := 5, doneChan := 0
             messageResultClosed := false, published := []
             dispatcher := DispatcherPC.admitting 5
             workers := [⟨0, WorkerPC.selecting⟩, ⟨1, WorkerPC.working⟩, ⟨2, WorkerPC.working⟩,
               ⟨3, WorkerPC.working⟩, ⟨4, WorkerPC.working⟩]
             panicked := false } ∧
    inFlight { ctxDone := false, semaphoreChan := 5, doneChan := 0
               messageResultClosed := false, published := []
               dispatcher := DispatcherPC.admitting 5
               workers := [⟨0, WorkerPC.selecting⟩, ⟨1, WorkerPC.working⟩,
                 ⟨2, WorkerPC.working⟩, ⟨3, WorkerPC.working⟩, ⟨4, WorkerPC.working⟩]
               panicked := false } ≤ 5 :=
  ⟨by decide,
    (in_flight_at_most_capacity false 6
      [Action.acquire, Action.spawn, Action.acquire, Action.spawn, Action.acquire,
        Action.spawn, Action.work 0, Action.acquire, Action.spawn, Action.acquire,
        Action.spawn]
      { ctxDone := false, semaphoreChan := 5, doneChan := 0
        messageResultClosed := false, published := []
        dispatcher := DispatcherPC.admitting 5
        workers := [⟨0, WorkerPC.selecting⟩, ⟨1, WorkerPC.working⟩, ⟨2, WorkerPC.working⟩,
          ⟨3, WorkerPC.working⟩, ⟨4, WorkerPC.working⟩]
        panicked := false } (by decide)).1⟩

/-- C4: every admitted task releases its admission token exactly once on every
exit path: in every run, a worker that has returned has taken exactly one of the
two branches of its `select` (publication, or abandon on `ctx.Done()`) and has
done `<-semaphoreChan` exactly once, and no worker ever does it twice; hence in
every state where all `numberOfTask` workers have returned `semaphoreChan` holds no
token. -/
theorem token_released_exactly_once (ctxDone : Bool) (numberOfTask : Int)
    (tr : List Action) (s : State) (h : reach ctxDone numberOfTask tr = some s) :
    (∀ k, getPC s.workers k = some WorkerPC.exited →
      tr.count (Action.release k) = 1 ∧
      tr.count (Action.publish k) + tr.count (Action.abandon k) = 1) ∧
    (∀ k, tr.count (Action.release k) ≤ 1) ∧
    (allExited numberOfTask s → s.semaphoreChan = 0) := by
  have hs := sound_reach h
  have hc := counted_reach h
  refine ⟨?_, ?_, ?_⟩
  · intro k hk
    have h1 := hc.released k
    have h2 := hc.selected k
    rw [hk] at h1 h2
    exact ⟨h1, h2⟩
  · intro k
    rw [hc.released k]
    exact releasedOf_le _
  · intro hall
    have h1 := hs.tokens
    have h2 := hs.started
    have h3 := hs.placed
    have h4 := countP_holds_of_allExited hall.2
    have h5 := hall.1
    rw [h1, inFlight, h4]
    cases hd : s.dispatcher with
    | spawning numberTask =>
      rw [hd] at h2 h3
      simp only [startedOf, wellPlaced] at h2 h3
      omega
    | admitting numberTask => rfl
    | waiting i => rfl
    | exited => rfl

/-- C4 on a run with two tasks: task 0 publishes, task 1 abandons after the
cancellation; both have released, `semaphoreChan` is empty. -/
theorem token_released_exactly_once_witness :
    reach false 2
        [Action.acquire, Action.spawn, Action.acquire, Action.work 0, Action.spawn,
          Action.publish 0, Action.cancel, Action.work 1, Action.abandon 1, Action.release 1,
          Action.release 0, Action.enterWait, Action.signalDone 0, Action.recvDone,
          Action.signalDone 1] =
      some { ctxDone := true, semaphoreChan := 0, doneChan := 1
             messageResultClosed := false, published := [⟨0, "FINISH TASK 0"⟩]
             dispatcher := DispatcherPC.waiting 1
             workers := [⟨0, WorkerPC.exited⟩, ⟨1, WorkerPC.exited⟩]
             panicked := false } ∧
    List.count (Action.release 1)
        [Action.acquire, Action.spawn, Action.acquire, Action.work 0, Action.spawn,
          Action.publish 0, Action.cancel, Action.work 1, Action.abandon 1, Action.release 1,
          Action.release 0, Action.enterWait, Action.signalDone 0, Action.recvDone,
          Action.signalDone 1] = 1 :=
  ⟨by decide,
    ((token_released_exactly_once false 2
      [Action.acquire, Action.spawn, Action.acquire, Action.work 0, Action.spawn,
        Action.publish 0, Action.cancel, Action.work 1, Action.abandon 1, Action.release 1,
        Action.release 0, Action.enterWait, Action.signalDone 0, Action.recvDone,
        Action.signalDone 1]
      { ctxDone := true, semaphoreChan := 0, doneChan := 1
        messageResultClosed := false, published := [⟨0, "FINISH TASK 0"⟩]
        dispatcher := DispatcherPC.waiting 1
        workers := [⟨0, WorkerPC.exited⟩, ⟨1, WorkerPC.exited⟩]
        panicked := false } (by decide)).1 1 (by decide)).1⟩

/-- C5: for every `numberOfTask` and every interleaving, with or without
cancellation, `messageResultChan` is closed only after all `numberOfTask` workers
have reported on `doneChan` and returned and the dispatcher has received
`numberOfTask` reports; each worker reports exactly once, whether it published or
abandoned, and never twice; consequently no worker is before or in its `select`
once the channel is closed, the publication is not enabled then, and the send on
the closed channel (the panic) never happens. -/
theorem results_closed_after_all_reported (ctxDone : Bool) (numberOfTask : Int)
    (tr : List Action) (s : State) (h : reach ctxDone numberOfTask tr = some s) :
    (s.messageResultClosed = true →
      allExited numberOfTask s ∧
      (tr.count Action.recvDone : Int) = numberOfTask ∧
      (∀ k : Nat, (k : Int) < numberOfTask → tr.count (Action.signalDone k) = 1) ∧
      (∀ k, step numberOfTask s (Action.publish k) = none)) ∧
    (∀ k, getPC s.workers k = some WorkerPC.exited →
      tr.count (Action.signalDone k) = 1 ∧
      tr.count (Action.publish k) + tr.count (Action.abandon k) = 1) ∧
    (∀ k, tr.count (Action.signalDone k) ≤ 1) ∧
    s.panicked = false := by
  have hs := sound_reach h
  have hc := counted_reach h
  refine ⟨?_, ?_, ?_, hs.noPanic⟩
  · intro hclosed
    have hd := hs.closed.mp hclosed
    have hall := sound_allExited hs hd
    refine ⟨hall, ?_, ?_, ?_⟩
    · have := hc.received
      rw [hd] at this
      exact this
    · intro k hk
      rw [hc.reported k, allExited_getPC hall hk]
      rfl
    · intro k
      simp only [RestoringSequencing.step]
      have hne : ¬ getPC s.workers k = some WorkerPC.selecting := by
        intro hg
        obtain ⟨w, hw, hwpc⟩ := getPC_mem hg
        have := hall.2 w hw
        rw [hwpc] at this
        cases this
      rw [if_neg hne]
  · intro k hk
    have h1 := hc.reported k
    have h2 := hc.selected k
    rw [hk] at h1 h2
    exact ⟨h1, h2⟩
  · intro k
    rw [hc.reported k]
    exact reportedOf_le _

/-- C5 on a complete run with two tasks, one publishing and one abandoning. -/
theorem results_closed_after_all_reported_witness :
    reach false 2
        [Action.acquire, Action.spawn, Action.acquire, Action.work 0, Action.spawn,
          Action.publish 0, Action.cancel, Action.work 1, Action.abandon 1, Action.release 1,
          Action.release 0, Action.enterWait, Action.signalDone 0, Action.recvDone,
          Action.signalDone 1, Action.recvDone, Action.closeResults] =
      some { ctxDone := true, semaphoreChan := 0, doneChan := 0
             messageResultClosed := true, published := [⟨0, "FINISH TASK 0"⟩]
             dispatcher := DispatcherPC.exited
             workers := [⟨0, WorkerPC.exited⟩, ⟨1, WorkerPC.exited⟩]
             panicked := false } ∧
    allExited 2
      { ctxDone := true, semaphoreChan := 0, doneChan := 0
        messageResultClosed := true, published := [⟨0, "FINISH TASK 0"⟩]
        dispatcher := DispatcherPC.exited
        workers := [⟨0, WorkerPC.exited⟩, ⟨1, WorkerPC.exited⟩]
        panicked := false } :=
  ⟨by decide,
    ((results_closed_after_all_reported false 2
      [Action.acquire, Action.spawn, Action.acquire, Action.work 0, Action.spawn,
        Action.publish 0, Action.cancel, Action.work 1, Action.abandon 1, Action.release 1,
        Action.release 0, Action.enterWait, Action.signalDone 0, Action.recvDone,
        Action.signalDone 1, Action.recvDone, Action.closeResults]
      { ctxDone := true, semaphoreChan := 0, doneChan := 0
        messageResultClosed := true, published := [⟨0, "FINISH TASK 0"⟩]
        dispatcher := DispatcherPC.exited
        workers := [⟨0, WorkerPC.exited⟩, ⟨1, WorkerPC.exited⟩]
        panicked := false } (by decide)).1 rfl).1⟩

/-- C8 as stated fails: after `ctx` is cancelled the dispatcher still acquires a
token from `semaphoreChan` and starts the worker of a further task. -/
theorem admits_after_cancel :
    reach false 2 [Action.acquire, Action.spawn, Action.cancel] =
      some { ctxDone := true, semaphoreChan := 1, doneChan := 0
             messageResultClosed := false, published := []
             dispatcher := DispatcherPC.admitting 1
             workers := [⟨0, WorkerPC.working⟩]
             panicked := false } ∧
    reach false 2 [Action.acquire, Action.spawn, Action.cancel, Action.acquire, Action.spawn] =
      some { ctxDone := true, semaphoreChan := 2, doneChan := 0
             messageResultClosed := false, published := []
             dispatcher := DispatcherPC.admitting 2
             workers := [⟨0, WorkerPC.working⟩, ⟨1, WorkerPC.working⟩]
             panicked := false } := by
  decide

/-- C8, amended: raising `ctx` does not stop admission.  The dispatcher does not
read `ctx`: in a state where `ctx` is already cancelled it acquires a token and
starts the worker of the next task exactly as it does without cancellation, that
is whenever `numberTask < numberOfTask` and `semaphoreChan` has a free slot. -/
theorem admission_ignores_cancel (numberOfTask : Int) (s : State) :
    step numberOfTask { s with ctxDone := true } Action.acquire =
      (step numberOfTask s Action.acquire).map (fun s' => { s' with ctxDone := true }) ∧
    step numberOfTask { s with ctxDone := true } Action.spawn =
      (step numberOfTask s Action.spawn).map (fun s' => { s' with ctxDone := true }) ∧
    ((step numberOfTask s Action.acquire).isSome = true ↔
      ∃ numberTask : Nat, s.dispatcher = DispatcherPC.admitting numberTask ∧
        (numberTask : Int) < numberOfTask ∧ s.semaphoreChan < 5) ∧
    ((step numberOfTask s Action.spawn).isSome = true ↔
      ∃ numberTask : Nat, s.dispatcher = DispatcherPC.spawning numberTask) := by
  refine ⟨?_, ?_, ?_, ?_⟩
  · simp only [RestoringSequencing.step]
    cases hd : s.dispatcher with
    | admitting numberTask =>
      simp only
      split_ifs <;> rfl
    | spawning numberTask => rfl
    | waiting i => rfl
    | exited => rfl
  · simp only [RestoringSequencing.step]
    cases hd : s.dispatcher <;> rfl
  · simp only [RestoringSequencing.step]
    cases hd : s.dispatcher with
    | admitting numberTask =>
      simp only [semaphoreCap]
      split_ifs with hg
      · simp [hg.1, hg.2]
      · simp only [Option.isSome_none, Bool.false_eq_true, false_iff]
        rintro ⟨n, hn, h1, h2⟩
        cases hn
        exact hg ⟨h1, h2⟩
    | spawning numberTask => simp
    | waiting i => simp
    | exited => simp
  · simp only [RestoringSequencing.step]
    cases hd : s.dispatcher <;> simp

end RestoringSequencing
